import Mathlib

/-!
Shallow embedding of the Clarke & Wright Savings implementation found in
`cws/algorithm.py` (the generator `biased_randomisation` and the classes
`Route`, `CWSConfiguration`, `ClarkeWrightSavings`), together with the record
shapes from `cws/edge.py` and `cws/node.py`.

Python object references are modelled with explicit pools and indices:

* edges are immutable records living in an indexed pool `epool`; the
  `edge.inverse` reference is the pool index of the inverse edge;
* `Route` objects created during a heuristic run live in a growing pool held
  in the mutable state `HState`; Python object identity of a route is its
  pool index, and in-place mutation of a route is an update of its pool cell;
* the `node.route` attribute is a table `nodeRoute` from node index to route
  pool index.

The floats `inf` and `-inf` used as defaults for `maxcost` and `minroutes`
appear in the source only inside the comparisons `x <= maxcost` and
`len(routes) <= minroutes`; both parameters are therefore modelled as
`Option Int`, `none` standing for the infinite default.  All other numeric
fields are integers in every use the development touches.

A Python exception is modelled as `Except.error` carrying the mutable state
at the raise point.
-/

/-- A vertex of the input graph: the depot (the literal string `"depot"` in
`main.py`) or a customer node identified by its index in the node list. -/
inductive Vertex where
  | depot : Vertex
  | node (i : Nat) : Vertex
deriving DecidableEq, Repr

/-- `cws/edge.py`: an `Edge` has an `origin`, a `dest`, a `saving` value, a
`cost`, and a reference `inverse` to the opposite-direction edge, modelled as
the index of that edge in the edge pool. -/
structure EdgeRec where
  origin : Vertex
  dest : Vertex
  saving : Int
  cost : Int
  inverse : Nat
deriving DecidableEq, Repr

instance : Inhabited EdgeRec := ⟨⟨Vertex.depot, Vertex.depot, 0, 0, 0⟩⟩

/-- `cws/node.py`: a `Node` carries a depot-to-node edge `dn_edge` and a
node-to-depot edge `nd_edge` (as edge-pool indices).  The `id` attribute is
used only for printing and is omitted; a node is identified by its index in
the node list.  The mutable `route` attribute lives in `HState.nodeRoute`. -/
structure NodeRec where
  dn_edge : Nat
  nd_edge : Nat
deriving DecidableEq, Repr

/-- The `ClarkeWrightSavings` solver object of `cws/algorithm.py`: it is
constructed from `nodes` (the nodes to visit) and `edges` (the edges
connecting them, given as indices `sedges` into the edge pool `epool`). -/
structure ClarkeWrightSavings where
  nodes : List NodeRec
  epool : List EdgeRec
  sedges : List Nat
deriving DecidableEq, Repr

/-- Dereference an edge id in the pool (total, with a default record whose
endpoints are both the depot; every id actually dereferenced on a normal
execution path is in range). -/
def edgeAt (g : ClarkeWrightSavings) (e : Nat) : EdgeRec :=
  g.epool.getD e default

/-- `edge.cost` of the edge with pool index `e`. -/
def ecost (g : ClarkeWrightSavings) (e : Nat) : Int :=
  (edgeAt g e).cost

/-- `sum(edge.cost for edge in edges)`. -/
def sumCost (g : ClarkeWrightSavings) (es : List Nat) : Int :=
  (es.map (ecost g)).sum

/-- `cws/algorithm.py`, class `Route`: an ordered sequence of edges (pool
indices) plus the cached overall cost maintained by the mutation methods. -/
structure Route where
  edges : List Nat
  cost : Int
deriving DecidableEq, Repr

/-- `Route.__init__`: the cached cost is computed once from the given edges
(`self.cost = sum(edge.cost for edge in self.edges)`). -/
def mkRoute (g : ClarkeWrightSavings) (es : List Nat) : Route :=
  ⟨es, sumCost g es⟩

/-- `Route.first_node`: `self.edges[0].dest`; `none` models the `IndexError`
on an empty route. -/
def Route.first_node (g : ClarkeWrightSavings) (r : Route) : Option Vertex :=
  r.edges.head?.map (fun e => (edgeAt g e).dest)

/-- `Route.last_node`: `self.edges[-1].origin`; `none` models the
`IndexError` on an empty route. -/
def Route.last_node (g : ClarkeWrightSavings) (r : Route) : Option Vertex :=
  r.edges.getLast?.map (fun e => (edgeAt g e).origin)

/-- `Route.popleft`: remove the first edge and subtract its cost from the
cached cost; `none` models the `IndexError` on an empty deque. -/
def Route.popleft (g : ClarkeWrightSavings) (r : Route) : Option Route :=
  match r.edges with
  | [] => none
  | e :: rest => some ⟨rest, r.cost - ecost g e⟩

/-- `Route.popright` (named `popright` in the source): remove the last edge
and subtract its cost from the cached cost. -/
def Route.popright (g : ClarkeWrightSavings) (r : Route) : Option Route :=
  match r.edges.getLast? with
  | none => none
  | some e => some ⟨r.edges.dropLast, r.cost - ecost g e⟩

/-- `Route.append`: add one edge on the right and add its cost to the cached
cost. -/
def Route.append (g : ClarkeWrightSavings) (r : Route) (e : Nat) : Route :=
  ⟨r.edges ++ [e], r.cost + ecost g e⟩

/-- `Route.extend`: add the given edges on the right and add the sum of
their costs to the cached cost. -/
def Route.extend (g : ClarkeWrightSavings) (r : Route) (es : List Nat) : Route :=
  ⟨r.edges ++ es, r.cost + sumCost g es⟩

/-- `ClarkeWrightSavings._reversed`: a new `Route` built from
`reversed([e.inverse for e in route.edges])`; the constructor recomputes the
cached cost from the inverse edges. -/
def _reversed (g : ClarkeWrightSavings) (route : Route) : Route :=
  mkRoute g ((route.edges.map (fun e => (edgeAt g e).inverse)).reverse)

/-- Remove and return the element at index `i` together with the remaining
list (`options.pop(idx)`); `none` models the `IndexError` on a bad index. -/
def popAt (l : List α) (i : Nat) : Option (α × List α) :=
  match l[i]? with
  | none => none
  | some x => some (x, l.take i ++ l.drop (i + 1))

/-- The loop body of the generator `biased_randomisation` in
`cws/algorithm.py`, run to exhaustion.  At step `k` the source draws
`u = random.random()` and computes `idx = int(math.log(u, 1.0 - beta))`,
a non-negative integer for every `beta` in `(0,1)` and `u` in `(0,1)`; the
draws are modelled by the arbitrary stream `draws : Nat -> Nat` of raw
indices, which the source then wraps with `% len(options)` before popping.
The loop runs `L = len(array)` times, so the pool is never empty when a pop
happens and the `none` branch of `popAt` is unreachable from
`biased_randomisation`. -/
def biasedLoop (draws : Nat → Nat) : Nat → Nat → List α → List α
  | _, 0, _ => []
  | k, n + 1, options =>
    match popAt options (draws k % options.length) with
    | none => []
    | some (x, rest) => x :: biasedLoop draws (k + 1) n rest

/-- `biased_randomisation(array, beta)`: `L = len(array)`,
`options = list(array)` (a fresh copy of the input list), then `L` biased
pops from `options`. -/
def biased_randomisation (draws : Nat → Nat) (array : List α) : List α :=
  biasedLoop draws 0 array.length array

/-- `biased_randomisation` together with the heap effect on the caller's
list object: the pair is (sequence of yielded items, final contents of the
list passed as `array`).  The source reads `array` twice (`len(array)` and
the copy `options = list(array)`) and never writes it; every `pop` acts on
the local copy `options`, so the second component is the unchanged input. -/
def biased_randomisation_heap (draws : Nat → Nat) (array : List α) :
    List α × List α :=
  let L := array.length
  let options := array
  (biasedLoop draws 0 L options, array)

/-- `CWSConfiguration` (the fields the algorithm reads; `biasedfunc` is
modelled as the default `biased_randomisation` driven by an explicit draw
stream, and `start`/`metaheuristic` are handled at the call sites). -/
structure CWSConfiguration where
  biased : Bool := true
  reverse : Bool := true
  metaheuristic : Bool := false
  maxiter : Nat := 1000
  maxnoimp : Int := 500
  maxcost : Option Int := none
  minroutes : Option Int := none
deriving DecidableEq, Repr

/-- The comparison `x <= maxcost` with `maxcost = inf` modelled as `none`. -/
def leMax (x : Int) (maxcost : Option Int) : Bool :=
  match maxcost with
  | none => true
  | some v => x ≤ v

/-- The comparison `len(routes) <= minroutes` with `minroutes = -inf`
modelled as `none`. -/
def floorHit (len : Nat) (minroutes : Option Int) : Bool :=
  match minroutes with
  | none => false
  | some v => (len : Int) ≤ v

/-- The mutable state of one `heuristic` run: the pool of `Route` objects
created so far (object identity = pool index), the list `routes` of pool
indices currently in the solution list, and the `node.route` table. -/
structure HState where
  pool : List Route
  routes : List Nat
  nodeRoute : List Nat
deriving DecidableEq, Repr

/-- The dummy solution: one route `[node.dn_edge, node.nd_edge]` per node,
appended in node order, with `node.route` set to its own route. -/
def dummyState (g : ClarkeWrightSavings) : HState :=
  { pool := g.nodes.map (fun nd => mkRoute g [nd.dn_edge, nd.nd_edge])
  , routes := List.range g.nodes.length
  , nodeRoute := List.range g.nodes.length }

/-- `routes.remove(x)`: remove the first occurrence; `none` models the
`ValueError` raised when `x` is not in the list. -/
def removeFirst : List Nat → Nat → Option (List Nat)
  | [], _ => none
  | x :: xs, y => if x = y then some xs else (removeFirst xs y).map (x :: ·)

/-- One assignment `e.dest.route = rid`.  When the destination is the depot
the table is unchanged (the depot has no `route` slot; on every execution
path reached below the skipped last edge is the only one with a depot
destination). -/
def updDest (g : ClarkeWrightSavings) (rid : Nat) (nr : List Nat) (e : Nat) :
    List Nat :=
  match (edgeAt g e).dest with
  | Vertex.depot => nr
  | Vertex.node i => nr.set i rid

/-- The loop `for e in itertools.islice(...): e.dest.route = rid` over the
given edge ids. -/
def updDests (g : ClarkeWrightSavings) (rid : Nat) (es : List Nat)
    (nr : List Nat) : List Nat :=
  es.foldl (updDest g rid) nr

/-- The body of the merge performed in the `reverse` branch once `redge`,
`riroute` (id `ririd`) and `rjroute` (id `rjrid`) are fixed: the feasibility
check against `maxcost`, then `popright`/`popleft`, `append`, `extend`, the
reassignment of `e.dest.route` over all but the last edge of the merged
route, and `routes.remove(rjroute)`. -/
def revMergeStep (g : ClarkeWrightSavings) (maxcost : Option Int) (re : Nat)
    (ririd rjrid : Nat) (rirec rjrec : Route) (st : HState) :
    Except HState HState :=
  if leMax (rirec.cost + rjrec.cost - (edgeAt g re).saving) maxcost then
    match rirec.popright g, rjrec.popleft g with
    | some i1, some j1 =>
      match removeFirst st.routes rjrid with
      | some rs =>
        Except.ok
          ⟨(st.pool.set ririd ((i1.append g re).extend g j1.edges)).set rjrid
              j1, rs,
            updDests g ririd
              ((i1.append g re).extend g j1.edges).edges.dropLast st.nodeRoute⟩
      | none =>
        Except.error
          ⟨(st.pool.set ririd ((i1.append g re).extend g j1.edges)).set rjrid
              j1, st.routes,
            updDests g ririd
              ((i1.append g re).extend g j1.edges).edges.dropLast st.nodeRoute⟩
    | _, _ => Except.error st
  else Except.ok st

/-- Processing of a single edge pulled from the savings iterator: everything
in the body of `for edge in savings_iterator` after the `minroutes` check.
`Except.ok` is the state in which the loop continues with the next edge;
`Except.error` models a raised exception. -/
def stepEdge (g : ClarkeWrightSavings) (reverse : Bool) (maxcost : Option Int)
    (e : Nat) (st : HState) : Except HState HState :=
  match (edgeAt g e).origin, (edgeAt g e).dest with
  | Vertex.node oi, Vertex.node di =>
    match st.nodeRoute[oi]?, st.nodeRoute[di]? with
    | some irid, some jrid =>
      -- If the routes are the same, next edge is considered
      if irid = jrid then Except.ok st
      else
        match st.pool[irid]?, st.pool[jrid]? with
        | some iroute, some jroute =>
          match iroute.first_node g, iroute.last_node g,
              jroute.first_node g, jroute.last_node g with
          | some ifirst, some ilast, some jfirst, some jlast =>
            -- Check if extremes of edge are internal
            if (Vertex.node oi ≠ ifirst ∧ Vertex.node oi ≠ ilast) ∨
                (Vertex.node di ≠ jfirst ∧ Vertex.node di ≠ jlast) then
              Except.ok st
            -- If the merging is possible with no reversions
            else if Vertex.node oi = ilast ∧ Vertex.node di = jfirst then
              if leMax (iroute.cost + jroute.cost - (edgeAt g e).saving)
                  maxcost then
                match iroute.popright g, jroute.popleft g with
                | some i1, some j1 =>
                  match removeFirst st.routes jrid with
                  | some rs =>
                    Except.ok
                      ⟨(st.pool.set irid ((i1.append g e).extend g j1.edges)).set
                          jrid j1, rs,
                        updDests g irid j1.edges.dropLast
                          (st.nodeRoute.set di irid)⟩
                  | none =>
                    Except.error
                      ⟨(st.pool.set irid ((i1.append g e).extend g j1.edges)).set
                          jrid j1, st.routes,
                        updDests g irid j1.edges.dropLast
                          (st.nodeRoute.set di irid)⟩
                | _, _ => Except.error st
              else Except.ok st
            -- If the reversion of routes is possible
            else if reverse then
              if Vertex.node oi = ifirst ∧ Vertex.node di = jlast then
                -- If both routes should be reversed, reverse the edge
                revMergeStep g maxcost (edgeAt g e).inverse irid jrid iroute
                  jroute st
              else if Vertex.node oi ≠ ilast ∧ Vertex.node di = jfirst then
                -- Reverse the first route
                match removeFirst st.routes irid with
                | none => Except.error st
                | some rs =>
                  revMergeStep g maxcost e st.pool.length jrid
                    (_reversed g iroute) jroute
                    ⟨st.pool ++ [_reversed g iroute], rs ++ [st.pool.length],
                      st.nodeRoute⟩
              else if Vertex.node oi = ilast ∧ Vertex.node di ≠ jfirst then
                -- Reverse the second route
                match removeFirst st.routes jrid with
                | none => Except.error st
                | some rs =>
                  revMergeStep g maxcost e irid st.pool.length iroute
                    (_reversed g jroute)
                    ⟨st.pool ++ [_reversed g jroute], rs ++ [st.pool.length],
                      st.nodeRoute⟩
              else
                revMergeStep g maxcost e irid jrid iroute jroute st
            else Except.ok st
          | _, _, _, _ => Except.error st
        | _, _ => Except.error st
    | _, _ => Except.error st
  | _, _ => Except.error st

/-- Ordered insertion used to model Python's stable `sorted(edges,
key=operator.attrgetter("saving"), reverse=True)`: an element is inserted
after every element with a strictly larger key and after no element with a
smaller or equal key, which is exactly the placement a stable descending
sort gives to an element arriving after the list already sorted. -/
def insertDesc (key : α → Int) (x : α) : List α → List α
  | [] => [x]
  | y :: ys =>
    if key x < key y then y :: insertDesc key x ys else x :: y :: ys

/-- Stable insertion sort by non-increasing key, modelling Python's stable
`sorted(..., reverse=True)`. -/
def sortDesc (key : α → Int) : List α → List α
  | [] => []
  | x :: xs => insertDesc key x (sortDesc key xs)

/-- `ClarkeWrightSavings.savings_list`: sort the edges for decreasing saving
value (`sorted(edges, key=operator.attrgetter("saving"), reverse=True)`, a
stable sort returning a fresh list). -/
def savings_list (g : ClarkeWrightSavings) (edges : List Nat) : List Nat :=
  sortDesc (fun e => (edgeAt g e).saving) edges

/-- The savings iterator: either the plain sorted list, or the lazy
`biased_randomisation` generator (remembered as the index `k` of the next
draw, the remaining count of `range(L)`, and the current `options` pool). -/
inductive SavIter where
  | plain (rest : List Nat) : SavIter
  | biased (k : Nat) (fuel : Nat) (options : List Nat) : SavIter
deriving DecidableEq, Repr

/-- Number of elements the iterator can still yield; used as the fuel of the
merge loop. -/
def SavIter.size : SavIter → Nat
  | SavIter.plain rest => rest.length
  | SavIter.biased _ fuel _ => fuel

/-- `savings_iterator = savings_list if not biased else biasedfunc(savings_list)`. -/
def initIter (g : ClarkeWrightSavings) (cfg : CWSConfiguration) : SavIter :=
  let sl := savings_list g g.sedges
  if cfg.biased then SavIter.biased 0 sl.length sl else SavIter.plain sl

/-- The `for edge in savings_iterator` loop of
`ClarkeWrightSavings.heuristic`.  Each round first pulls the next edge (for
the biased generator this performs the next random draw, where `draws k =
none` models the `ZeroDivisionError` of `math.log(u, 1.0 - beta)` with
`beta = 0`), then checks the `minroutes` floor, then runs `stepEdge`.  The
fuel argument equals `it.size` at every call, so the `0` case is exactly the
exhausted iterator. -/
def mergeLoop (g : ClarkeWrightSavings) (cfg : CWSConfiguration)
    (draws : Nat → Option Nat) : Nat → SavIter → HState → Except HState HState
  | 0, _, st => Except.ok st
  | _ + 1, SavIter.plain [], st => Except.ok st
  | _ + 1, SavIter.biased _ 0 _, st => Except.ok st
  | fuel + 1, SavIter.plain (e :: rest), st =>
    if floorHit st.routes.length cfg.minroutes then Except.ok st
    else
      match stepEdge g cfg.reverse cfg.maxcost e st with
      | Except.error st1 => Except.error st1
      | Except.ok st1 => mergeLoop g cfg draws fuel (SavIter.plain rest) st1
  | fuel + 1, SavIter.biased k (m + 1) options, st =>
    match draws k with
    | none => Except.error st
    | some rw =>
      match popAt options (rw % options.length) with
      | none => Except.error st
      | some (e, rest) =>
        if floorHit st.routes.length cfg.minroutes then Except.ok st
        else
          match stepEdge g cfg.reverse cfg.maxcost e st with
          | Except.error st1 => Except.error st1
          | Except.ok st1 =>
            mergeLoop g cfg draws fuel (SavIter.biased (k + 1) m rest) st1

/-- `return routes, sum(r.cost for r in routes)`: dereference the route ids
still in the list (every listed id is in range on every reachable state) and
sum their cached costs. -/
def solutionOf (st : HState) : List Route × Int :=
  let rs := st.routes.filterMap (fun rid => st.pool[rid]?)
  (rs, (rs.map Route.cost).sum)

/-- `ClarkeWrightSavings.heuristic(config)`: build the dummy solution, build
the savings iterator, run the merging loop, and return the routes with their
total cost.  The early `return` on the `minroutes` floor and the final
`return` produce the same value, so both are represented by the `Except.ok`
state. -/
def heuristic (g : ClarkeWrightSavings) (cfg : CWSConfiguration)
    (draws : Nat → Option Nat) : Except HState (List Route × Int) :=
  let st0 := dummyState g
  let it0 := initIter g cfg
  match mergeLoop g cfg draws it0.size it0 st0 with
  | Except.error st => Except.error st
  | Except.ok st => Except.ok (solutionOf st)

/-- The iterated local search loop of `ClarkeWrightSavings._metaheuristic`:
`fuel` counts the remaining `range(maxiter)` rounds, `t` is the index of the
current round (selecting the draw stream `draws2 t` passed to the fresh
`heuristic` run), `best`/`cost` is the current best solution and `missed`
the iterations since the last improvement. -/
def metaLoop (g : ClarkeWrightSavings) (cfg : CWSConfiguration)
    (draws2 : Nat → Nat → Option Nat) :
    Nat → Nat → List Route × Int → Nat → Except HState (List Route × Int)
  | 0, _, best, _ => Except.ok best
  | fuel + 1, t, best, missed =>
    match heuristic g cfg (draws2 t) with
    | Except.error st => Except.error st
    | Except.ok newsol =>
      let missed1 := missed + 1
      let next :=
        if newsol.2 < best.2 then (newsol, 0) else (best, missed1)
      if cfg.maxnoimp < (next.2 : Int) then Except.ok next.1
      else metaLoop g cfg draws2 fuel (t + 1) next.1 next.2

/-- `ClarkeWrightSavings._metaheuristic(starting_sol, config)`. -/
def _metaheuristic (g : ClarkeWrightSavings) (starting_sol : List Route × Int)
    (cfg : CWSConfiguration) (draws2 : Nat → Nat → Option Nat) :
    Except HState (List Route × Int) :=
  metaLoop g cfg draws2 cfg.maxiter 0 starting_sol 0

/-! ### Basic facts about edge-cost sums -/

theorem sumCost_nil (g : ClarkeWrightSavings) : sumCost g [] = 0 := rfl

theorem sumCost_cons (g : ClarkeWrightSavings) (e : Nat) (l : List Nat) :
    sumCost g (e :: l) = ecost g e + sumCost g l := by
  simp [sumCost]

theorem sumCost_append (g : ClarkeWrightSavings) (l1 l2 : List Nat) :
    sumCost g (l1 ++ l2) = sumCost g l1 + sumCost g l2 := by
  simp [sumCost]

theorem sumCost_dropLast (g : ClarkeWrightSavings) (l : List Nat) (e : Nat)
    (h : l.getLast? = some e) : sumCost g l.dropLast + ecost g e = sumCost g l := by
  have hne : l ≠ [] := by intro he; subst he; simp at h
  conv_rhs => rw [(List.dropLast_append_getLast hne).symm]
  rw [List.getLast?_eq_getLast l hne] at h
  cases h
  rw [sumCost_append]
  simp [sumCost]

/-- C5 — the cached `Route.cost` equals the sum of the costs of the current
edges directly after construction, and each mutation method (`append`,
`extend`, `popleft`, `popright`) preserves this invariant, updating the
cached cost by exactly the delta it introduces. -/
theorem route_cost_invariant (g : ClarkeWrightSavings) (r : Route) (e : Nat)
    (es : List Nat) (hinv : r.cost = sumCost g r.edges) :
    (mkRoute g es).cost = sumCost g (mkRoute g es).edges
    ∧ (r.append g e).cost = sumCost g (r.append g e).edges
    ∧ (r.extend g es).cost = sumCost g (r.extend g es).edges
    ∧ (∀ r1, r.popleft g = some r1 → r1.cost = sumCost g r1.edges)
    ∧ (∀ r1, r.popright g = some r1 → r1.cost = sumCost g r1.edges) :=
  by
  refine ⟨rfl, ?_, ?_, ?_, ?_⟩
  · simp [Route.append, sumCost_append, sumCost_cons, sumCost_nil, hinv]
  · simp [Route.extend, sumCost_append, hinv]
  · intro r1 h1
    unfold Route.popleft at h1
    cases he : r.edges with
    | nil => rw [he] at h1; exact absurd h1 (by simp)
    | cons a rest =>
      rw [he] at h1
      cases h1
      rw [he, sumCost_cons] at hinv
      simp
      omega
  · intro r1 h1
    unfold Route.popright at h1
    cases he : r.edges.getLast? with
    | none => rw [he] at h1; exact absurd h1 (by simp)
    | some a =>
      rw [he] at h1
      cases h1
      have := sumCost_dropLast g r.edges a he
      simp
      omega

/-- Concrete edge pool used by the witness of `route_cost_invariant`. -/
def gC5 : ClarkeWrightSavings :=
  { nodes := []
  , epool := [⟨Vertex.node 0, Vertex.node 1, 0, 3, 1⟩,
              ⟨Vertex.node 1, Vertex.node 0, 0, 4, 0⟩]
  , sedges := [] }

/-- Witness for `route_cost_invariant` on a concrete two-edge route. -/
theorem route_cost_invariant_witness :
    ((mkRoute gC5 [0, 1]).append gC5 0).cost
        = sumCost gC5 ((mkRoute gC5 [0, 1]).append gC5 0).edges
    ∧ (Route.mk [1] 4).cost = sumCost gC5 (Route.mk [1] 4).edges :=
  ⟨(route_cost_invariant gC5 (mkRoute gC5 [0, 1]) 0 [0, 1] (by decide)).2.1,
   (route_cost_invariant gC5 (mkRoute gC5 [0, 1]) 0 [0, 1] (by decide)).2.2.2.1
      (Route.mk [1] 4) (by decide)⟩

/-! ### C4 — route reversal -/

/-- Edge pool with an asymmetric inverse pair: edge 0 costs 5, its inverse
costs 7. -/
def gC4 : ClarkeWrightSavings :=
  { nodes := []
  , epool := [⟨Vertex.node 0, Vertex.node 1, 0, 5, 1⟩,
              ⟨Vertex.node 1, Vertex.node 0, 0, 7, 0⟩]
  , sedges := [] }

/-- C4 counterexample — the claim asserts `_reversed(r).cost = r.cost` for
every route, but the constructor recomputes the cost from the inverse
edges, and nothing in `cws/edge.py` forces an inverse pair to share its
cost: on the one-edge route over the asymmetric pair of `gC4` the reversed
route costs 7 while the original costs 5. -/
theorem reversed_cost_counterexample :
    (_reversed gC4 (mkRoute gC4 [0])).cost ≠ (mkRoute gC4 [0]).cost := by
  decide

/-- C4 amended — `_reversed` returns a new route whose edge sequence is the
input's edges in reverse positional order with each edge replaced by its
inverse (this part holds unconditionally, and the input route is untouched
since a fresh `Route` is constructed); its cost equals the input's cached
cost provided every edge's inverse has the same cost as the edge and the
input's cached cost is consistent with its edges. -/
theorem reversed_spec (g : ClarkeWrightSavings) (r : Route)
    (hsym : ∀ e ∈ r.edges, ecost g (edgeAt g e).inverse = ecost g e)
    (hc : r.cost = sumCost g r.edges) :
    (_reversed g r).edges = (r.edges.map (fun e => (edgeAt g e).inverse)).reverse
    ∧ (_reversed g r).cost = r.cost := by
  constructor
  · rfl
  · show sumCost g ((r.edges.map (fun e => (edgeAt g e).inverse)).reverse) = r.cost
    rw [hc]
    unfold sumCost
    rw [List.map_reverse, List.sum_reverse, List.map_map]
    exact congrArg List.sum (List.map_congr_left (fun e he => hsym e he))

/-- Pool with a symmetric inverse pair for the witness of `reversed_spec`. -/
def gC4s : ClarkeWrightSavings :=
  { nodes := []
  , epool := [⟨Vertex.node 0, Vertex.node 1, 0, 5, 1⟩,
              ⟨Vertex.node 1, Vertex.node 0, 0, 5, 0⟩]
  , sedges := [] }

/-- Witness for `reversed_spec` on a concrete symmetric-cost route. -/
theorem reversed_spec_witness :
    (_reversed gC4s (mkRoute gC4s [0, 1])).edges
        = ((mkRoute gC4s [0, 1]).edges.map
            (fun e => (edgeAt gC4s e).inverse)).reverse
    ∧ (_reversed gC4s (mkRoute gC4s [0, 1])).cost = (mkRoute gC4s [0, 1]).cost :=
  reversed_spec gC4s (mkRoute gC4s [0, 1]) (by decide) (by decide)

/-! ### C10 — the savings list -/

theorem insertDesc_perm (key : α → Int) (x : α) (l : List α) :
    List.Perm (insertDesc key x l) (x :: l) := by
  induction l with
  | nil => exact List.Perm.refl _
  | cons y ys ih =>
    unfold insertDesc
    by_cases h : key x < key y
    · simp only [h, if_true]
      exact ((ih.cons y).trans (List.Perm.swap x y ys)).symm.symm
    · simp only [h, if_false]
      exact List.Perm.refl _

theorem mem_insertDesc (key : α → Int) (x z : α) (l : List α)
    (h : z ∈ insertDesc key x l) : z = x ∨ z ∈ l := by
  have := (insertDesc_perm key x l).mem_iff.mp h
  simpa using this

theorem insertDesc_sorted (key : α → Int) (x : α) (l : List α)
    (h : l.Pairwise (fun a b => key b ≤ key a)) :
    (insertDesc key x l).Pairwise (fun a b => key b ≤ key a) := by
  induction l with
  | nil => simp [insertDesc]
  | cons y ys ih =>
    rcases List.pairwise_cons.mp h with ⟨hy, hys⟩
    unfold insertDesc
    by_cases hk : key x < key y
    · simp only [hk, if_true]
      refine List.pairwise_cons.mpr ⟨?_, ih hys⟩
      intro z hz
      rcases mem_insertDesc key x z ys hz with hzx | hzys
      · subst hzx; exact le_of_lt hk
      · exact hy z hzys
    · simp only [hk, if_false]
      refine List.pairwise_cons.mpr ⟨?_, h⟩
      intro z hz
      rcases List.mem_cons.mp hz with hzy | hzys
      · subst hzy; exact le_of_not_lt hk
      · exact le_trans (hy z hzys) (le_of_not_lt hk)

theorem insertDesc_filter_key (key : α → Int) (x : α) (l : List α) (s : Int) :
    (insertDesc key x l).filter (fun a => key a == s)
      = (x :: l).filter (fun a => key a == s) := by
  induction l with
  | nil => rfl
  | cons y ys ih =>
    unfold insertDesc
    by_cases hk : key x < key y
    · simp only [hk, if_true]
      cases hys : (key y == s) with
      | true =>
        have hy_eq : key y = s := by rwa [beq_iff_eq] at hys
        have hxs : (key x == s) = false := by
          rw [beq_eq_false_iff_ne]
          intro hxe
          rw [hxe, hy_eq] at hk
          exact lt_irrefl s hk
        simp only [List.filter_cons, hys, if_true, hxs]
        rw [ih]
        simp [List.filter_cons, hxs, hys]
      | false =>
        simp only [List.filter_cons, hys]
        rw [ih]
        simp [List.filter_cons, hys]
    · simp only [hk, if_false]

theorem sortDesc_perm (key : α → Int) (l : List α) :
    List.Perm (sortDesc key l) l := by
  induction l with
  | nil => exact List.Perm.refl _
  | cons x xs ih =>
    exact (insertDesc_perm key x (sortDesc key xs)).trans (ih.cons x)

theorem sortDesc_sorted (key : α → Int) (l : List α) :
    (sortDesc key l).Pairwise (fun a b => key b ≤ key a) := by
  induction l with
  | nil => simp [sortDesc]
  | cons x xs ih => exact insertDesc_sorted key x (sortDesc key xs) ih

theorem sortDesc_filter_key (key : α → Int) (l : List α) (s : Int) :
    (sortDesc key l).filter (fun a => key a == s)
      = l.filter (fun a => key a == s) := by
  induction l with
  | nil => rfl
  | cons x xs ih =>
    show (insertDesc key x (sortDesc key xs)).filter (fun a => key a == s)
      = (x :: xs).filter (fun a => key a == s)
    rw [insertDesc_filter_key]
    simp only [List.filter_cons]
    rw [ih]

/-- C10 — `savings_list` returns the input edges sorted by non-increasing
saving value; it is a permutation of the input (so it contains exactly the
input edges and, being a pure function, leaves the input list itself
untouched), and it is stable: for every saving value `s`, the subsequence of
edges whose saving equals `s` is exactly the corresponding subsequence of
the input, in input order. -/
theorem savings_list_spec (g : ClarkeWrightSavings) (edges : List Nat) :
    List.Perm (savings_list g edges) edges
    ∧ (savings_list g edges).Pairwise
        (fun a b => (edgeAt g b).saving ≤ (edgeAt g a).saving)
    ∧ ∀ s : Int,
        (savings_list g edges).filter (fun e => (edgeAt g e).saving == s)
          = edges.filter (fun e => (edgeAt g e).saving == s) :=
  ⟨sortDesc_perm _ edges, sortDesc_sorted _ edges,
   fun s => sortDesc_filter_key _ edges s⟩

/-! ### C7 and C8 — the biased-randomised generator -/

theorem popAt_perm (l : List α) (i : Nat) (x : α) (rest : List α)
    (h : popAt l i = some (x, rest)) :
    List.Perm l (x :: rest) ∧ rest.length + 1 = l.length := by
  unfold popAt at h
  cases hg : l[i]? with
  | none => rw [hg] at h; exact absurd h (by simp)
  | some y =>
    rw [hg] at h
    rw [Option.some.injEq, Prod.mk.injEq] at h
    rcases h with ⟨hxy, hrest⟩
    have hi : i < l.length := (List.getElem?_eq_some_iff.mp hg).1
    have hy : l[i] = y := (List.getElem?_eq_some_iff.mp hg).2
    have hsplit : l = l.take i ++ y :: l.drop (i + 1) := by
      conv_lhs => rw [(List.take_append_drop i l).symm]
      rw [List.drop_eq_getElem_cons hi, hy]
    constructor
    · rw [← hxy, ← hrest]
      conv_lhs => rw [hsplit]
      exact List.perm_middle
    · rw [← hrest]
      have : l.length = (l.take i ++ y :: l.drop (i + 1)).length := by
        rw [← hsplit]
      simp [List.length_take, List.length_drop] at this ⊢
      omega

theorem biasedLoop_perm (draws : Nat → Nat) (n : Nat) :
    ∀ (k : Nat) (opts : List α), opts.length = n →
      List.Perm (biasedLoop draws k n opts) opts := by
  induction n with
  | zero =>
    intro k opts h
    rw [List.length_eq_zero.mp h]
    exact List.Perm.refl _
  | succ m ih =>
    intro k opts h
    have hpos : 0 < opts.length := by omega
    have hidx : draws k % opts.length < opts.length := Nat.mod_lt _ hpos
    cases hp : popAt opts (draws k % opts.length) with
    | none =>
      exfalso
      unfold popAt at hp
      rw [List.getElem?_eq_getElem hidx] at hp
      simp at hp
    | some pr =>
      rcases pr with ⟨x, rest⟩
      rcases popAt_perm opts _ x rest hp with ⟨hperm, hlen⟩
      show List.Perm (biasedLoop draws k (m + 1) opts) opts
      unfold biasedLoop
      rw [hp]
      exact ((ih (k + 1) rest (by omega)).cons x).trans hperm.symm

/-- C7 — for every draw stream (modelling arbitrary `beta` in `(0,1)` and
`u` in `(0,1)`, whose raw geometric index `int(log(u, 1-beta))` is an
arbitrary natural number wrapped by `% len(options)`) the generator yields
exactly `N = len(array)` items, and they are a permutation of the input:
each input occurrence is yielded exactly once. -/
theorem biased_randomisation_perm [DecidableEq α] (draws : Nat → Nat)
    (array : List α) :
    (biased_randomisation draws array).length = array.length
    ∧ List.Perm (biased_randomisation draws array) array
    ∧ ∀ a : α, (biased_randomisation draws array).count a = array.count a := by
  have hperm : List.Perm (biased_randomisation draws array) array :=
    biasedLoop_perm draws array.length 0 array rfl
  exact ⟨hperm.length_eq, hperm, fun a => hperm.count_eq a⟩

/-- C8 counterexample — the claim states that after the generator is
exhausted the list passed as `array` has been modified (its elements
removed).  The source copies the input (`options = list(array)`) and pops
only from the copy, so on the concrete input `[1, 2, 3]` the caller's list
still holds `[1, 2, 3]` after exhaustion. -/
theorem biased_randomisation_consumes_counterexample :
    ¬ ((biased_randomisation_heap (fun k => k) [1, 2, 3]).2 ≠ [1, 2, 3]) := by
  decide

/-- C8 amended — `biased_randomisation` does not consume its input: the
generator pops from the internal copy `options = list(array)`, the caller's
list is unchanged after exhaustion (so no defensive copy is needed), and
the yielded sequence is the one produced from the copy. -/
theorem biased_randomisation_heap_pure (draws : Nat → Nat) (array : List α) :
    (biased_randomisation_heap draws array).2 = array
    ∧ (biased_randomisation_heap draws array).1
        = biased_randomisation draws array :=
  ⟨rfl, rfl⟩

/-! ### C6 — the iterated local search never degrades the start -/

theorem metaLoop_monotone (g : ClarkeWrightSavings) (cfg : CWSConfiguration)
    (draws2 : Nat → Nat → Option Nat) :
    ∀ (fuel t : Nat) (best : List Route × Int) (missed : Nat)
      (out : List Route × Int),
      metaLoop g cfg draws2 fuel t best missed = Except.ok out →
      out.2 ≤ best.2 := by
  intro fuel
  induction fuel with
  | zero =>
    intro t best missed out h
    unfold metaLoop at h
    rw [Except.ok.injEq] at h
    rw [← h]
  | succ m ih =>
    intro t best missed out h
    unfold metaLoop at h
    cases hh : heuristic g cfg (draws2 t) with
    | error st => rw [hh] at h; exact absurd h (by simp)
    | ok newsol =>
      rw [hh] at h
      simp only [] at h
      by_cases himp : newsol.2 < best.2
      · simp only [himp, if_true] at h
        by_cases hstop : cfg.maxnoimp < ((0 : Nat) : Int)
        · simp only [hstop, if_true] at h
          rw [Except.ok.injEq] at h
          rw [← h]
          exact le_of_lt himp
        · simp only [hstop, if_false] at h
          exact le_trans (ih (t + 1) newsol 0 out h) (le_of_lt himp)
      · simp only [himp, if_false] at h
        by_cases hstop : cfg.maxnoimp < ((missed + 1 : Nat) : Int)
        · simp only [hstop, if_true] at h
          rw [Except.ok.injEq] at h
          rw [← h]
        · simp only [hstop, if_false] at h
          exact ih (t + 1) best (missed + 1) out h

/-- C6 — for every starting solution, configuration and family of draw
streams, if `_metaheuristic` returns normally then the returned cost is at
most the starting solution's cost: the best is replaced only by strictly
cheaper solutions. -/
theorem metaheuristic_monotone (g : ClarkeWrightSavings)
    (starting_sol : List Route × Int) (cfg : CWSConfiguration)
    (draws2 : Nat → Nat → Option Nat) (out : List Route × Int)
    (h : _metaheuristic g starting_sol cfg draws2 = Except.ok out) :
    out.2 ≤ starting_sol.2 :=
  metaLoop_monotone g cfg draws2 cfg.maxiter 0 starting_sol 0 out h

/-- Concrete inputs for the witness of `metaheuristic_monotone`: a real run
on the two-node instance with one improving heuristic iteration. -/
def gC6 : ClarkeWrightSavings :=
  { nodes := [⟨0, 1⟩, ⟨2, 3⟩]
  , epool :=
      [ ⟨Vertex.depot, Vertex.node 0, 0, 10, 1⟩
      , ⟨Vertex.node 0, Vertex.depot, 0, 10, 0⟩
      , ⟨Vertex.depot, Vertex.node 1, 0, 10, 3⟩
      , ⟨Vertex.node 1, Vertex.depot, 0, 10, 2⟩
      , ⟨Vertex.node 0, Vertex.node 1, 18, 2, 5⟩
      , ⟨Vertex.node 1, Vertex.node 0, 18, 2, 4⟩ ]
  , sedges := [4] }

/-- Configuration used by the witness of `metaheuristic_monotone`. -/
def cfgC6 : CWSConfiguration :=
  { biased := false, reverse := false, metaheuristic := true
  , maxiter := 2, maxnoimp := 5, maxcost := none, minroutes := none }

/-- Witness for `metaheuristic_monotone`: starting from the dummy solution
of cost 40, two `heuristic` iterations find the merged solution of cost 22,
which is not worse than the start. -/
theorem metaheuristic_monotone_witness :
    ((([Route.mk [0, 4, 3] 22], 22) : List Route × Int)).2 ≤ (40 : Int) :=
  metaheuristic_monotone gC6
    ([Route.mk [0, 1] 20, Route.mk [2, 3] 20], 40) cfgC6
    (fun _ _ => none) ([Route.mk [0, 4, 3] 22], 22) rfl

/-! ### C9 — `beta = 0` raises during solving, not before -/

theorem savings_list_length (g : ClarkeWrightSavings) (es : List Nat) :
    (savings_list g es).length = es.length :=
  (sortDesc_perm _ es).length_eq

/-- C9 amended — with the biased selection enabled and `beta = 0` every
draw raises a `ZeroDivisionError` (`math.log(u, 1.0 - beta)` divides by
`log(1.0) = 0`), modelled by a draw stream that always fails.  Because
`biased_randomisation` is a generator, the error is raised lazily at the
first element request of the savings iterator: if the edge list is
non-empty the heuristic raises at the first loop round — after the dummy
solution has been built and every `node.route` has been set, before any
merge — and does not hang.  (With an empty edge list no draw ever happens
and no error is raised.) -/
theorem heuristic_beta_zero_raises (g : ClarkeWrightSavings)
    (cfg : CWSConfiguration) (hb : cfg.biased = true) (hs : g.sedges ≠ []) :
    heuristic g cfg (fun _ => none) = Except.error (dummyState g)
    ∧ (dummyState g).routes = List.range g.nodes.length
    ∧ (dummyState g).nodeRoute = List.range g.nodes.length
    ∧ (dummyState g).pool
        = g.nodes.map (fun nd => mkRoute g [nd.dn_edge, nd.nd_edge]) := by
  refine ⟨?_, rfl, rfl, rfl⟩
  obtain ⟨m, hm⟩ : ∃ m, (savings_list g g.sedges).length = m + 1 := by
    cases hL : (savings_list g g.sedges).length with
    | zero =>
      exfalso
      rw [savings_list_length] at hL
      exact hs (List.length_eq_zero.mp hL)
    | succ m => exact ⟨m, rfl⟩
  unfold heuristic initIter
  rw [hb]
  simp only [if_true, SavIter.size, hm]
  rw [mergeLoop]

/-- Concrete two-node graph with one savings edge, used to settle C9. -/
def g9 : ClarkeWrightSavings :=
  { nodes := [⟨0, 1⟩, ⟨2, 3⟩]
  , epool :=
      [ ⟨Vertex.depot, Vertex.node 0, 0, 10, 1⟩
      , ⟨Vertex.node 0, Vertex.depot, 0, 10, 0⟩
      , ⟨Vertex.depot, Vertex.node 1, 0, 10, 3⟩
      , ⟨Vertex.node 1, Vertex.depot, 0, 10, 2⟩
      , ⟨Vertex.node 0, Vertex.node 1, 18, 2, 5⟩
      , ⟨Vertex.node 1, Vertex.node 0, 18, 2, 4⟩ ]
  , sedges := [4] }

/-- Configuration with the biased randomisation enabled, for C9. -/
def cfg9 : CWSConfiguration :=
  { biased := true, reverse := true, maxcost := none, minroutes := none }

/-- C9 counterexample — the claim says the `beta = 0` domain error is
raised before any solving begins, in particular before the dummy solution
is built.  On the concrete instance `g9` the run does raise, but the state
at the raise point already holds the two dummy routes in `pool` and
`routes` and both `node.route` assignments: the dummy solution is fully
built before the error. -/
theorem beta_zero_after_dummy_counterexample :
    heuristic g9 cfg9 (fun _ => none)
      = Except.error
          ⟨[Route.mk [0, 1] 20, Route.mk [2, 3] 20], [0, 1], [0, 1]⟩ := rfl

/-- Witness for `heuristic_beta_zero_raises` on the concrete instance. -/
theorem heuristic_beta_zero_raises_witness :
    heuristic g9 cfg9 (fun _ => none) = Except.error (dummyState g9) :=
  (heuristic_beta_zero_raises g9 cfg9 rfl (by decide)).1

/-! ### C1 — a rejected reversal-assisted merge breaks the partition -/

/-- Whether route `r` visits customer `i`, i.e. some edge of `r` has
`node i` as destination (in a depot-to-depot route every visited customer
is the destination of exactly one edge). -/
def visitsNode (g : ClarkeWrightSavings) (r : Route) (i : Nat) : Bool :=
  r.edges.any (fun e => (edgeAt g e).dest == Vertex.node i)

/-- Well-formedness of the inverse pairing required by C1: every edge has a
closed inverse pair (in range, involutive, and with swapped endpoints). -/
def invClosedB (g : ClarkeWrightSavings) : Bool :=
  (List.range g.epool.length).all (fun e =>
    decide ((edgeAt g e).inverse < g.epool.length)
    && (edgeAt g (edgeAt g e).inverse).inverse == e
    && (edgeAt g (edgeAt g e).inverse).origin == (edgeAt g e).dest
    && (edgeAt g (edgeAt g e).inverse).dest == (edgeAt g e).origin)

/-- The five-node instance on which `heuristic` loses a node.  Nodes
0,1,2,3,4 each have depot edges of cost 10 (edge ids `2*i` and `2*i+1`,
mutually inverse).  The savings edges are 0→1 (saving 18), 2→3 (16),
0→2 (14) and 1→4 (12), each with its inverse and with savings consistent
with the depot-edge costs. -/
def g1 : ClarkeWrightSavings :=
  { nodes := [⟨0, 1⟩, ⟨2, 3⟩, ⟨4, 5⟩, ⟨6, 7⟩, ⟨8, 9⟩]
  , epool :=
      [ ⟨Vertex.depot, Vertex.node 0, 0, 10, 1⟩
      , ⟨Vertex.node 0, Vertex.depot, 0, 10, 0⟩
      , ⟨Vertex.depot, Vertex.node 1, 0, 10, 3⟩
      , ⟨Vertex.node 1, Vertex.depot, 0, 10, 2⟩
      , ⟨Vertex.depot, Vertex.node 2, 0, 10, 5⟩
      , ⟨Vertex.node 2, Vertex.depot, 0, 10, 4⟩
      , ⟨Vertex.depot, Vertex.node 3, 0, 10, 7⟩
      , ⟨Vertex.node 3, Vertex.depot, 0, 10, 6⟩
      , ⟨Vertex.depot, Vertex.node 4, 0, 10, 9⟩
      , ⟨Vertex.node 4, Vertex.depot, 0, 10, 8⟩
      , ⟨Vertex.node 0, Vertex.node 1, 18, 2, 11⟩
      , ⟨Vertex.node 1, Vertex.node 0, 18, 2, 10⟩
      , ⟨Vertex.node 2, Vertex.node 3, 16, 4, 13⟩
      , ⟨Vertex.node 3, Vertex.node 2, 16, 4, 12⟩
      , ⟨Vertex.node 0, Vertex.node 2, 14, 6, 15⟩
      , ⟨Vertex.node 2, Vertex.node 0, 14, 6, 14⟩
      , ⟨Vertex.node 1, Vertex.node 4, 12, 8, 17⟩
      , ⟨Vertex.node 4, Vertex.node 1, 12, 8, 16⟩ ]
  , sedges := [10, 12, 14, 16] }

/-- Configuration of the C1 run: deterministic consumption order,
`reverse` enabled, `maxcost = 30`. -/
def cfg1 : CWSConfiguration :=
  { biased := false, reverse := true, maxcost := some 30, minroutes := none }

/-- C1 — on the well-formed instance `g1` (closed inverse pairs) the run
merges 0-1, then merges 2-3, then tries the reversal-assisted merge of
route (0,1) with route (2,3) along edge 0→2: route (0,1) is removed from
the route list and replaced by its reversed copy, the `maxcost` check
rejects the merge (32 > 30), and nodes 0 and 1 are left pointing at the
discarded original.  The later edge 1→4 then merges node 4's dummy route
into that stale object: node 4's route is removed from the list while the
merged route holding node 4 is not in the list.  The returned solution has
two routes visiting nodes {2,3} and {1,0}; node 4 appears in no returned
route, so the returned routes do not partition the node set. -/
theorem heuristic_partition_violated :
    invClosedB g1 = true
    ∧ heuristic g1 cfg1 (fun _ => none)
        = Except.ok ([Route.mk [4, 12, 7] 24, Route.mk [2, 11, 1] 22], 46)
    ∧ (Except.ok ([Route.mk [4, 12, 7] 24, Route.mk [2, 11, 1] 22], 46)
          : Except HState (List Route × Int)).toOption.map
        (fun sol => (List.range 5).map
          (fun i => sol.1.countP (fun r => visitsNode g1 r i)))
        = some [1, 1, 1, 1, 0] :=
  ⟨rfl, rfl, rfl⟩

/-! ### C3 — the route floor -/

theorem removeFirst_length (l : List Nat) (y : Nat) (l1 : List Nat)
    (h : removeFirst l y = some l1) : l1.length + 1 = l.length := by
  induction l generalizing l1 with
  | nil => exact absurd h (by simp [removeFirst])
  | cons x xs ih =>
    unfold removeFirst at h
    by_cases hx : x = y
    · simp only [hx, if_true] at h
      rw [Option.some.injEq] at h
      rw [← h]
      rfl
    · simp only [hx, if_false] at h
      cases hr : removeFirst xs y with
      | none => rw [hr] at h; exact absurd h (by simp)
      | some l2 =>
        rw [hr] at h
        rw [Option.map_some', Option.some.injEq] at h
        rw [← h]
        have := ih l2 hr
        simp only [List.length_cons]
        omega

theorem removeFirst_subset (l : List Nat) (y : Nat) (l1 : List Nat)
    (h : removeFirst l y = some l1) : ∀ z ∈ l1, z ∈ l := by
  induction l generalizing l1 with
  | nil => exact absurd h (by simp [removeFirst])
  | cons x xs ih =>
    unfold removeFirst at h
    by_cases hx : x = y
    · simp only [hx, if_true] at h
      rw [Option.some.injEq] at h
      rw [← h]
      intro z hz
      exact List.mem_cons_of_mem x hz
    · simp only [hx, if_false] at h
      cases hr : removeFirst xs y with
      | none => rw [hr] at h; exact absurd h (by simp)
      | some l2 =>
        rw [hr] at h
        rw [Option.map_some', Option.some.injEq] at h
        rw [← h]
        intro z hz
        rcases List.mem_cons.mp hz with hzx | hzl2
        · subst hzx; exact List.mem_cons_self z xs
        · exact List.mem_cons_of_mem x (ih l2 hr z hzl2)


theorem revMergeStep_routes (g : ClarkeWrightSavings) (mc : Option Int)
    (re ririd rjrid : Nat) (rirec rjrec : Route) (st st1 : HState)
    (hv : ∀ rid ∈ st.routes, rid < st.pool.length)
    (h : revMergeStep g mc re ririd rjrid rirec rjrec st = Except.ok st1) :
    (∀ rid ∈ st1.routes, rid < st1.pool.length)
    ∧ st.routes.length ≤ st1.routes.length + 1 := by
  unfold revMergeStep at h
  by_cases hfeas :
      leMax (rirec.cost + rjrec.cost - (edgeAt g re).saving) mc = true
  · rw [if_pos hfeas] at h
    cases hpr : rirec.popright g with
    | none => rw [hpr] at h; exact absurd h (by simp)
    | some i1 =>
      cases hpl : rjrec.popleft g with
      | none => rw [hpr, hpl] at h; exact absurd h (by simp)
      | some j1 =>
        rw [hpr, hpl] at h
        cases hrm : removeFirst st.routes rjrid with
        | none => rw [hrm] at h; exact absurd h (by simp)
        | some rs =>
          rw [hrm] at h
          rw [Except.ok.injEq] at h
          subst h
          refine ⟨?_, ?_⟩
          · intro rid hrid
            simp only [] at hrid
            have hmem := removeFirst_subset st.routes rjrid rs hrm rid hrid
            have := hv rid hmem
            simpa using this
          · have := removeFirst_length st.routes rjrid rs hrm
            simp only [List.length_cons]
            omega
  · rw [if_neg hfeas] at h
    rw [Except.ok.injEq] at h
    subst h
    exact ⟨hv, Nat.le_succ _⟩

theorem stepEdge_routes (g : ClarkeWrightSavings) (rev : Bool)
    (mc : Option Int) (e : Nat) (st st1 : HState)
    (hv : ∀ rid ∈ st.routes, rid < st.pool.length)
    (h : stepEdge g rev mc e st = Except.ok st1) :
    (∀ rid ∈ st1.routes, rid < st1.pool.length)
    ∧ st.routes.length ≤ st1.routes.length + 1 := by
  unfold stepEdge at h
  cases hor : (edgeAt g e).origin with
  | depot => rw [hor] at h; exact absurd h (by simp)
  | node oi =>
  cases hde : (edgeAt g e).dest with
  | depot => rw [hor, hde] at h; exact absurd h (by simp)
  | node di =>
  rw [hor, hde] at h
  simp only [] at h
  cases hoi : st.nodeRoute[oi]? with
  | none => rw [hoi] at h; exact absurd h (by simp)
  | some irid =>
  cases hdi : st.nodeRoute[di]? with
  | none => rw [hoi, hdi] at h; exact absurd h (by simp)
  | some jrid =>
  rw [hoi, hdi] at h
  simp only [] at h
  by_cases hij : irid = jrid
  · rw [if_pos hij] at h
    rw [Except.ok.injEq] at h
    subst h
    exact ⟨hv, Nat.le_succ _⟩
  · rw [if_neg hij] at h
    cases hir : st.pool[irid]? with
    | none => rw [hir] at h; exact absurd h (by simp)
    | some iroute =>
    cases hjr : st.pool[jrid]? with
    | none => rw [hir, hjr] at h; exact absurd h (by simp)
    | some jroute =>
    rw [hir, hjr] at h
    simp only [] at h
    cases hfn : iroute.first_node g with
    | none => rw [hfn] at h; exact absurd h (by simp)
    | some ifirst =>
    cases hln : iroute.last_node g with
    | none => rw [hfn, hln] at h; exact absurd h (by simp)
    | some ilast =>
    cases hjf : jroute.first_node g with
    | none => rw [hfn, hln, hjf] at h; exact absurd h (by simp)
    | some jfirst =>
    cases hjl : jroute.last_node g with
    | none => rw [hfn, hln, hjf, hjl] at h; exact absurd h (by simp)
    | some jlast =>
    rw [hfn, hln, hjf, hjl] at h
    simp only [] at h
    by_cases hint : (Vertex.node oi ≠ ifirst ∧ Vertex.node oi ≠ ilast)
        ∨ (Vertex.node di ≠ jfirst ∧ Vertex.node di ≠ jlast)
    · rw [if_pos hint] at h
      rw [Except.ok.injEq] at h
      subst h
      exact ⟨hv, Nat.le_succ _⟩
    · rw [if_neg hint] at h
      by_cases hdir : (Vertex.node oi = ilast ∧ Vertex.node di = jfirst)
      · rw [if_pos hdir] at h
        by_cases hfeas :
            leMax (iroute.cost + jroute.cost - (edgeAt g e).saving) mc = true
        · rw [if_pos hfeas] at h
          cases hpr : iroute.popright g with
          | none => rw [hpr] at h; exact absurd h (by simp)
          | some i1 =>
          cases hpl : jroute.popleft g with
          | none => rw [hpr, hpl] at h; exact absurd h (by simp)
          | some j1 =>
          rw [hpr, hpl] at h
          simp only [] at h
          cases hrm : removeFirst st.routes jrid with
          | none => rw [hrm] at h; exact absurd h (by simp)
          | some rs =>
            rw [hrm] at h
            simp only [] at h
            rw [Except.ok.injEq] at h
            subst h
            refine ⟨?_, ?_⟩
            · intro rid hrid
              simp only [] at hrid
              have := hv rid (removeFirst_subset st.routes jrid rs hrm rid hrid)
              simpa using this
            · have := removeFirst_length st.routes jrid rs hrm
              simp only []
              omega
        · rw [if_neg hfeas] at h
          rw [Except.ok.injEq] at h
          subst h
          exact ⟨hv, Nat.le_succ _⟩
      · rw [if_neg hdir] at h
        by_cases hrev : rev = true
        · rw [if_pos hrev] at h
          by_cases hcase1 : (Vertex.node oi = ifirst ∧ Vertex.node di = jlast)
          · rw [if_pos hcase1] at h
            exact revMergeStep_routes g mc (edgeAt g e).inverse irid jrid
              iroute jroute st st1 hv h
          · rw [if_neg hcase1] at h
            by_cases hcase2 : (Vertex.node oi ≠ ilast ∧ Vertex.node di = jfirst)
            · rw [if_pos hcase2] at h
              cases hrm : removeFirst st.routes irid with
              | none => rw [hrm] at h; exact absurd h (by simp)
              | some rs =>
                rw [hrm] at h
                simp only [] at h
                have hlen := removeFirst_length st.routes irid rs hrm
                have hv1 : ∀ rid ∈ rs ++ [st.pool.length],
                    rid < (st.pool ++ [_reversed g iroute]).length := by
                  intro rid hrid
                  rcases List.mem_append.mp hrid with hin | hlast
                  · have := hv rid (removeFirst_subset st.routes irid rs hrm rid hin)
                    simp only [List.length_append, List.length_cons]
                    omega
                  · rcases List.mem_singleton.mp hlast with rfl
                    simp
                have hres := revMergeStep_routes g mc e st.pool.length jrid
                  (_reversed g iroute) jroute
                  ⟨st.pool ++ [_reversed g iroute], rs ++ [st.pool.length],
                    st.nodeRoute⟩ st1 hv1 h
                refine ⟨hres.1, ?_⟩
                have h2 := hres.2
                simp only [List.length_append, List.length_cons,
                  List.length_nil] at h2
                omega
            · rw [if_neg hcase2] at h
              by_cases hcase3 : (Vertex.node oi = ilast ∧ Vertex.node di ≠ jfirst)
              · rw [if_pos hcase3] at h
                cases hrm : removeFirst st.routes jrid with
                | none => rw [hrm] at h; exact absurd h (by simp)
                | some rs =>
                  rw [hrm] at h
                  simp only [] at h
                  have hlen := removeFirst_length st.routes jrid rs hrm
                  have hv1 : ∀ rid ∈ rs ++ [st.pool.length],
                      rid < (st.pool ++ [_reversed g jroute]).length := by
                    intro rid hrid
                    rcases List.mem_append.mp hrid with hin | hlast
                    · have := hv rid (removeFirst_subset st.routes jrid rs hrm rid hin)
                      simp only [List.length_append, List.length_cons]
                      omega
                    · rcases List.mem_singleton.mp hlast with rfl
                      simp
                  have hres := revMergeStep_routes g mc e irid st.pool.length
                    iroute (_reversed g jroute)
                    ⟨st.pool ++ [_reversed g jroute], rs ++ [st.pool.length],
                      st.nodeRoute⟩ st1 hv1 h
                  refine ⟨hres.1, ?_⟩
                  have h2 := hres.2
                  simp only [List.length_append, List.length_cons,
                    List.length_nil] at h2
                  omega
              · rw [if_neg hcase3] at h
                exact revMergeStep_routes g mc e irid jrid iroute jroute st st1
                  hv h
        · rw [if_neg hrev] at h
          rw [Except.ok.injEq] at h
          subst h
          exact ⟨hv, Nat.le_succ _⟩

theorem mergeLoop_floor (g : ClarkeWrightSavings) (cfg : CWSConfiguration)
    (draws : Nat → Option Nat) (v : Int) (hm : cfg.minroutes = some v) :
    ∀ (fuel : Nat) (it : SavIter) (st st1 : HState),
      (∀ rid ∈ st.routes, rid < st.pool.length) →
      mergeLoop g cfg draws fuel it st = Except.ok st1 →
      (∀ rid ∈ st1.routes, rid < st1.pool.length)
      ∧ min v (st.routes.length : Int) ≤ (st1.routes.length : Int) := by
  intro fuel
  induction fuel with
  | zero =>
    intro it st st1 hv h
    unfold mergeLoop at h
    rw [Except.ok.injEq] at h
    subst h
    exact ⟨hv, min_le_right _ _⟩
  | succ m ih =>
    intro it st st1 hv h
    cases it with
    | plain rest =>
      cases rest with
      | nil =>
        unfold mergeLoop at h
        rw [Except.ok.injEq] at h
        subst h
        exact ⟨hv, min_le_right _ _⟩
      | cons e rest =>
        unfold mergeLoop at h
        by_cases hf : floorHit st.routes.length cfg.minroutes = true
        · rw [if_pos hf] at h
          rw [Except.ok.injEq] at h
          subst h
          exact ⟨hv, min_le_right _ _⟩
        · rw [if_neg hf] at h
          cases hs : stepEdge g cfg.reverse cfg.maxcost e st with
          | error st2 => rw [hs] at h; exact absurd h (by simp)
          | ok st2 =>
            rw [hs] at h
            simp only [] at h
            have hst := stepEdge_routes g cfg.reverse cfg.maxcost e st st2 hv hs
            have hrec := ih (SavIter.plain rest) st2 st1 hst.1 h
            refine ⟨hrec.1, ?_⟩
            have hguard : ¬ ((st.routes.length : Int) ≤ v) := by
              rw [hm] at hf
              unfold floorHit at hf
              simpa using hf
            have h1 := hst.2
            have h2 := hrec.2
            omega
    | biased k kf options =>
      cases kf with
      | zero =>
        unfold mergeLoop at h
        rw [Except.ok.injEq] at h
        subst h
        exact ⟨hv, min_le_right _ _⟩
      | succ m2 =>
        unfold mergeLoop at h
        cases hd : draws k with
        | none => rw [hd] at h; exact absurd h (by simp)
        | some rwv =>
          rw [hd] at h
          simp only [] at h
          cases hp : popAt options (rwv % options.length) with
          | none => rw [hp] at h; exact absurd h (by simp)
          | some pr =>
            rcases pr with ⟨e, rest⟩
            rw [hp] at h
            simp only [] at h
            by_cases hf : floorHit st.routes.length cfg.minroutes = true
            · rw [if_pos hf] at h
              rw [Except.ok.injEq] at h
              subst h
              exact ⟨hv, min_le_right _ _⟩
            · rw [if_neg hf] at h
              cases hs : stepEdge g cfg.reverse cfg.maxcost e st with
              | error st2 => rw [hs] at h; exact absurd h (by simp)
              | ok st2 =>
                rw [hs] at h
                simp only [] at h
                have hst := stepEdge_routes g cfg.reverse cfg.maxcost e st st2
                  hv hs
                have hrec := ih (SavIter.biased (k + 1) m2 rest) st2 st1
                  hst.1 h
                refine ⟨hrec.1, ?_⟩
                have hguard : ¬ ((st.routes.length : Int) ≤ v) := by
                  rw [hm] at hf
                  unfold floorHit at hf
                  simpa using hf
                have h1 := hst.2
                have h2 := hrec.2
                omega

theorem filterMap_getElem_length (pool : List Route) (l : List Nat)
    (hv : ∀ rid ∈ l, rid < pool.length) :
    (l.filterMap (fun rid => pool[rid]?)).length = l.length := by
  induction l with
  | nil => rfl
  | cons a as ih =>
    have ha : a < pool.length := hv a (List.mem_cons_self a as)
    rw [List.filterMap_cons]
    rw [List.getElem?_eq_getElem ha]
    simp only [List.length_cons]
    rw [ih (fun rid hr => hv rid (List.mem_cons_of_mem a hr))]

theorem dummyState_routes_valid (g : ClarkeWrightSavings) :
    ∀ rid ∈ (dummyState g).routes, rid < (dummyState g).pool.length := by
  intro rid hrid
  unfold dummyState at hrid ⊢
  simp only [List.mem_range] at hrid
  simpa using hrid

/-- C3 amended — on every normal return the number of returned routes is at
least `min minroutes n`, where `n` is the number of input nodes: when
`minroutes ≤ n` the floor `minroutes` is honoured (every merge runs only
under the guard `len(routes) > minroutes` and removes one route), but when
`minroutes > n` the loop exits at the first savings edge (or never merges)
and returns all `n` dummy routes, fewer than `minroutes`. -/
theorem heuristic_route_floor (g : ClarkeWrightSavings)
    (cfg : CWSConfiguration) (draws : Nat → Option Nat) (v : Int)
    (rts : List Route) (tc : Int) (hm : cfg.minroutes = some v)
    (h : heuristic g cfg draws = Except.ok (rts, tc)) :
    min v (g.nodes.length : Int) ≤ (rts.length : Int) := by
  unfold heuristic at h
  simp only [] at h
  cases hrun : mergeLoop g cfg draws (initIter g cfg).size (initIter g cfg)
      (dummyState g) with
  | error st => rw [hrun] at h; exact absurd h (by simp)
  | ok st =>
    rw [hrun] at h
    simp only [] at h
    rw [Except.ok.injEq] at h
    have hfloor := mergeLoop_floor g cfg draws v hm (initIter g cfg).size
      (initIter g cfg) (dummyState g) st (dummyState_routes_valid g) hrun
    have hlen : rts.length = st.routes.length := by
      have : rts = (solutionOf st).1 := by rw [h]
      rw [this]
      unfold solutionOf
      exact filterMap_getElem_length st.pool st.routes hfloor.1
    have hdummy : (dummyState g).routes.length = g.nodes.length := by
      unfold dummyState
      simp
    rw [hlen]
    have := hfloor.2
    rw [hdummy] at this
    exact this

/-- Two-node instance with one savings edge, used to settle C3. -/
def g3 : ClarkeWrightSavings :=
  { nodes := [⟨0, 1⟩, ⟨2, 3⟩]
  , epool :=
      [ ⟨Vertex.depot, Vertex.node 0, 0, 10, 1⟩
      , ⟨Vertex.node 0, Vertex.depot, 0, 10, 0⟩
      , ⟨Vertex.depot, Vertex.node 1, 0, 10, 3⟩
      , ⟨Vertex.node 1, Vertex.depot, 0, 10, 2⟩
      , ⟨Vertex.node 0, Vertex.node 1, 18, 2, 5⟩
      , ⟨Vertex.node 1, Vertex.node 0, 18, 2, 4⟩ ]
  , sedges := [4] }

/-- Configuration demanding at least five routes, for C3. -/
def cfg3 : CWSConfiguration :=
  { biased := false, reverse := false, maxcost := none, minroutes := some 5 }

/-- C3 counterexample — with `minroutes = 5` and only two input nodes the
heuristic pulls the first savings edge, sees `len(routes) = 2 <= 5` and
returns the two dummy routes: the returned number of routes is 2, strictly
below `minroutes`. -/
theorem route_floor_counterexample :
    heuristic g3 cfg3 (fun _ => none)
      = Except.ok ([Route.mk [0, 1] 20, Route.mk [2, 3] 20], 40)
    ∧ ¬ ((5 : Int)
        ≤ (([Route.mk [0, 1] 20, Route.mk [2, 3] 20] : List Route).length
            : Int)) :=
  ⟨rfl, by decide⟩

/-- Witness for `heuristic_route_floor` on the concrete instance `g3`:
`min 5 2 = 2` routes are indeed returned. -/
theorem heuristic_route_floor_witness :
    min (5 : Int) ((g3.nodes.length : Nat) : Int)
      ≤ ((([Route.mk [0, 1] 20, Route.mk [2, 3] 20] : List Route).length)
          : Int) :=
  heuristic_route_floor g3 cfg3 (fun _ => none) 5
    [Route.mk [0, 1] 20, Route.mk [2, 3] 20] 40 rfl rfl

/-! ### C2 — the `maxcost` feasibility bound -/

/-- Single-node instance used for the C2 counterexample. -/
def gC2 : ClarkeWrightSavings :=
  { nodes := [⟨0, 1⟩]
  , epool := [⟨Vertex.depot, Vertex.node 0, 0, 10, 1⟩,
              ⟨Vertex.node 0, Vertex.depot, 0, 10, 0⟩]
  , sedges := [] }

/-- C2 counterexample — with `maxcost = 5` the single dummy round trip of
cost 20 is returned unchanged: its cost is never compared against
`maxcost`, and the returned route violates `route.cost <= maxcost`. -/
theorem maxcost_counterexample :
    heuristic gC2
        { biased := false, reverse := false, maxcost := some 5
        , minroutes := none } (fun _ => none)
      = Except.ok ([Route.mk [0, 1] 20], 20)
    ∧ ¬ ((Route.mk [0, 1] 20).cost ≤ (5 : Int)) :=
  ⟨rfl, by decide⟩

/-- Structural well-formedness of the node table: each node's `dn_edge`
goes depot-to-node and its `nd_edge` node-to-depot. -/
def wfNodesB (g : ClarkeWrightSavings) : Bool :=
  (List.range g.nodes.length).all (fun i =>
    match g.nodes[i]? with
    | none => false
    | some nd =>
      (edgeAt g nd.dn_edge).origin == Vertex.depot
      && (edgeAt g nd.dn_edge).dest == Vertex.node i
      && (edgeAt g nd.nd_edge).origin == Vertex.node i
      && (edgeAt g nd.nd_edge).dest == Vertex.depot)

/-- Savings consistency of one edge record: for a customer-to-customer edge
`o -> d`, `saving = cost(o -> depot) + cost(depot -> d) - cost(o -> d)`,
exactly the quantity `main.py` precomputes.  Edges touching the depot are
unconstrained. -/
def consistentEdgeB (g : ClarkeWrightSavings) (er : EdgeRec) : Bool :=
  match er.origin, er.dest with
  | Vertex.node o, Vertex.node d =>
    match g.nodes[o]?, g.nodes[d]? with
    | some no, some nd =>
      er.saving
        == (edgeAt g no.nd_edge).cost + (edgeAt g nd.dn_edge).cost - er.cost
    | _, _ => false
  | _, _ => true

/-- Well-formed input for the amended C2: structurally sound node table and
savings consistent with the depot-edge costs on every pooled edge. -/
def wfB (g : ClarkeWrightSavings) : Bool :=
  wfNodesB g && g.epool.all (consistentEdgeB g)

theorem wfNodes_spec (g : ClarkeWrightSavings) (h : wfB g = true) (i : Nat)
    (nd : NodeRec) (hi : g.nodes[i]? = some nd) :
    (edgeAt g nd.dn_edge).origin = Vertex.depot
    ∧ (edgeAt g nd.dn_edge).dest = Vertex.node i
    ∧ (edgeAt g nd.nd_edge).origin = Vertex.node i
    ∧ (edgeAt g nd.nd_edge).dest = Vertex.depot := by
  have hn : wfNodesB g = true := by
    unfold wfB at h
    simp only [Bool.and_eq_true] at h
    exact h.1
  unfold wfNodesB at hn
  rw [List.all_eq_true] at hn
  have hlen : i < g.nodes.length := (List.getElem?_eq_some_iff.mp hi).1
  have := hn i (List.mem_range.mpr hlen)
  rw [hi] at this
  simp only [Bool.and_eq_true, beq_iff_eq] at this
  exact ⟨this.1.1.1, this.1.1.2, this.1.2, this.2⟩

theorem consistent_spec (g : ClarkeWrightSavings) (h : wfB g = true) (e : Nat)
    (o d : Nat) (ho : (edgeAt g e).origin = Vertex.node o)
    (hd : (edgeAt g e).dest = Vertex.node d) :
    ∃ no nd, g.nodes[o]? = some no ∧ g.nodes[d]? = some nd
      ∧ (edgeAt g e).saving
          = (edgeAt g no.nd_edge).cost + (edgeAt g nd.dn_edge).cost
            - (edgeAt g e).cost := by
  have hc : g.epool.all (consistentEdgeB g) = true := by
    unfold wfB at h
    simp only [Bool.and_eq_true] at h
    exact h.2
  rw [List.all_eq_true] at hc
  have he : e < g.epool.length := by
    by_contra hce
    have : edgeAt g e = default := by
      unfold edgeAt
      rw [List.getD_eq_default]
      omega
    rw [this] at ho
    exact absurd ho (by simp [default])
  have hmem : edgeAt g e ∈ g.epool := by
    unfold edgeAt
    rw [List.getD_eq_getElem?_getD, List.getElem?_eq_getElem he]
    exact List.getElem_mem he
  have := hc (edgeAt g e) hmem
  unfold consistentEdgeB at this
  rw [ho, hd] at this
  simp only [] at this
  cases hno : g.nodes[o]? with
  | none => rw [hno] at this; exact absurd this (by simp)
  | some no =>
  cases hnd : g.nodes[d]? with
  | none => rw [hno, hnd] at this; exact absurd this (by simp)
  | some nd =>
    rw [hno, hnd] at this
    simp only [] at this
    simp only [beq_iff_eq] at this
    exact ⟨no, nd, rfl, rfl, this⟩

theorem head?_dropLast (l : List Nat) (h : 2 ≤ l.length) :
    l.dropLast.head? = l.head? := by
  cases l with
  | nil => simp at h
  | cons x t =>
    cases t with
    | nil => simp at h
    | cons y u => simp [List.dropLast_cons₂]

theorem getElem?_set_cases (l : List Nat) (a i : Nat) (x y : Nat)
    (h : (l.set a x)[i]? = some y) :
    (y = x ∧ i = a ∧ a < l.length) ∨ l[i]? = some y := by
  rw [List.getElem?_set] at h
  by_cases hai : a = i
  · rw [if_pos hai] at h
    by_cases hl : a < l.length
    · rw [if_pos hl] at h
      rw [Option.some.injEq] at h
      exact Or.inl ⟨h.symm, hai.symm, hl⟩
    · rw [if_neg hl] at h
      exact absurd h (by simp)
  · rw [if_neg hai] at h
    exact Or.inr h

/-- Invariant on a single pooled route maintained by the direct-merge-only
runs: at least two edges, cached cost equal to the edge-cost sum, first edge
equal to the `dn_edge` of some node and last edge equal to the `nd_edge` of
some node, and cost at most `M` as soon as the route is the product of a
merge (more than two edges). -/
def RouteInv (g : ClarkeWrightSavings) (M : Int) (r : Route) : Prop :=
  2 ≤ r.edges.length
  ∧ r.cost = sumCost g r.edges
  ∧ (∃ (f : Nat) (nf : NodeRec),
      g.nodes[f]? = some nf ∧ r.edges.head? = some nf.dn_edge)
  ∧ (∃ (l : Nat) (nl : NodeRec),
      g.nodes[l]? = some nl ∧ r.edges.getLast? = some nl.nd_edge)
  ∧ (2 < r.edges.length → r.cost ≤ M)

/-- Global invariant of the heuristic state for direct-merge-only runs:
the route list has no duplicates, every listed route satisfies `RouteInv`,
every `node.route` pointer targets a listed route, and every node pointing
at a route occurs as a destination on that route. -/
def StInv (g : ClarkeWrightSavings) (M : Int) (st : HState) : Prop :=
  st.routes.Nodup
  ∧ (∀ rid ∈ st.routes, ∃ r, st.pool[rid]? = some r ∧ RouteInv g M r)
  ∧ (∀ (i rid : Nat), st.nodeRoute[i]? = some rid → rid ∈ st.routes)
  ∧ (∀ (i rid : Nat) (r : Route), st.nodeRoute[i]? = some rid →
      st.pool[rid]? = some r →
      Vertex.node i ∈ r.edges.map (fun e => (edgeAt g e).dest))

theorem dummyState_inv (g : ClarkeWrightSavings) (M : Int)
    (hwf : wfB g = true) :
    StInv g M (dummyState g) := by
  refine ⟨?_, ?_, ?_, ?_⟩
  · unfold dummyState
    exact List.nodup_range _
  · intro rid hrid
    unfold dummyState at hrid ⊢
    simp only [List.mem_range] at hrid
    refine ⟨mkRoute g [(g.nodes.get ⟨rid, hrid⟩).dn_edge, (g.nodes.get ⟨rid, hrid⟩).nd_edge],
      ?_, ?_, ?_, ?_, ?_, ?_⟩
    · simp only [List.getElem?_map, List.getElem?_eq_getElem hrid]
      rfl
    · simp [mkRoute]
    · rfl
    · refine ⟨rid, g.nodes.get ⟨rid, hrid⟩, ?_, ?_⟩
      · exact List.getElem?_eq_getElem hrid
      · rfl
    · refine ⟨rid, g.nodes.get ⟨rid, hrid⟩, ?_, ?_⟩
      · exact List.getElem?_eq_getElem hrid
      · rfl
    · intro hlt
      exact absurd hlt (by simp [mkRoute])
  · intro i rid hir
    unfold dummyState at hir ⊢
    simp only [List.getElem?_range'] at hir
    by_cases hi : i < g.nodes.length
    · rw [List.getElem?_range hi] at hir
      rw [Option.some.injEq] at hir
      subst hir
      simpa using hi
    · rw [List.getElem?_eq_none] at hir
      · exact absurd hir (by simp)
      · simpa using hi
  · intro i rid r hir hpr
    unfold dummyState at hir hpr
    by_cases hi : i < g.nodes.length
    · rw [List.getElem?_range hi] at hir
      rw [Option.some.injEq] at hir
      subst hir
      rw [List.getElem?_map, List.getElem?_eq_getElem hi] at hpr
      simp only [Option.map_some', Option.some.injEq] at hpr
      subst hpr
      have hw := wfNodes_spec g hwf i g.nodes[i]
        (List.getElem?_eq_getElem hi)
      simp only [mkRoute, List.map_cons, List.map_nil]
      rw [hw.2.1]
      exact List.mem_cons_self _ _
    · rw [List.getElem?_eq_none] at hir
      · exact absurd hir (by simp)
      · simpa using hi

theorem merge_routeInv (g : ClarkeWrightSavings) (M : Int) (hwf : wfB g = true)
    (e oi di : Nat) (iroute jroute i1 j1 : Route)
    (hor : (edgeAt g e).origin = Vertex.node oi)
    (hde : (edgeAt g e).dest = Vertex.node di)
    (hii : RouteInv g M iroute) (hji : RouteInv g M jroute)
    (hlast : iroute.last_node g = some (Vertex.node oi))
    (hfirst : jroute.first_node g = some (Vertex.node di))
    (hfeas : iroute.cost + jroute.cost - (edgeAt g e).saving ≤ M)
    (hpr : iroute.popright g = some i1) (hpl : jroute.popleft g = some j1) :
    RouteInv g M ((i1.append g e).extend g j1.edges)
    ∧ ((i1.append g e).extend g j1.edges).edges
        = iroute.edges.dropLast ++ e :: jroute.edges.tail
    ∧ ((i1.append g e).extend g j1.edges).cost
        = iroute.cost + jroute.cost - (edgeAt g e).saving := by
  obtain ⟨hleni, hcosti, ⟨fi, nfi, hfi, hheadi⟩, ⟨li, nli, hli, hlasti⟩, hMi⟩ :=
    hii
  obtain ⟨hlenj, hcostj, ⟨fj, nfj, hfj, hheadj⟩, ⟨lj, nlj, hlj, hlastj⟩, hMj⟩ :=
    hji
  -- identify the popped depot edges
  have hi1 : i1 = ⟨iroute.edges.dropLast, iroute.cost - ecost g nli.nd_edge⟩ := by
    unfold Route.popright at hpr
    rw [hlasti] at hpr
    rw [Option.some.injEq] at hpr
    exact hpr.symm
  have hjcons : nfj.dn_edge :: jroute.edges.tail = jroute.edges :=
    List.cons_head?_tail hheadj
  have hj1 : j1 = ⟨jroute.edges.tail, jroute.cost - ecost g nfj.dn_edge⟩ := by
    unfold Route.popleft at hpl
    rw [← hjcons] at hpl
    rw [Option.some.injEq] at hpl
    rw [← hpl]
  have hwi := wfNodes_spec g hwf li nli hli
  have hwj := wfNodes_spec g hwf fj nfj hfj
  -- the node at the tail of iroute is oi, the node at the head of jroute
  -- is di
  have hoi_li : li = oi := by
    unfold Route.last_node at hlast
    rw [hlasti] at hlast
    simp only [Option.map_some', Option.some.injEq] at hlast
    rw [hwi.2.2.1] at hlast
    exact Vertex.node.inj hlast
  have hdi_fj : fj = di := by
    unfold Route.first_node at hfirst
    rw [hheadj] at hfirst
    simp only [Option.map_some', Option.some.injEq] at hfirst
    rw [hwj.2.1] at hfirst
    exact Vertex.node.inj hfirst
  -- savings consistency for the merge edge
  have hor2 : (edgeAt g e).origin = Vertex.node li := by rw [hor, hoi_li]
  have hde2 : (edgeAt g e).dest = Vertex.node fj := by rw [hde, hdi_fj]
  obtain ⟨no, nd, hno, hnd, hsv⟩ := consistent_spec g hwf e li fj hor2 hde2
  have hno_eq : no = nli := by
    rw [hli] at hno
    rw [Option.some.injEq] at hno
    exact hno.symm
  have hnd_eq : nd = nfj := by
    rw [hfj] at hnd
    rw [Option.some.injEq] at hnd
    exact hnd.symm
  rw [hno_eq, hnd_eq] at hsv
  -- shape of the merged route
  have hshape : ((i1.append g e).extend g j1.edges).edges
      = iroute.edges.dropLast ++ e :: jroute.edges.tail := by
    rw [hi1, hj1]
    simp [Route.append, Route.extend]
  -- cost sums of the two trimmed parts
  have htail_sum : sumCost g jroute.edges.tail
      = jroute.cost - ecost g nfj.dn_edge := by
    have hx : sumCost g (nfj.dn_edge :: jroute.edges.tail)
        = sumCost g jroute.edges := by
      rw [hjcons]
    rw [sumCost_cons] at hx
    omega
  have hdrop_sum : sumCost g iroute.edges.dropLast
      = iroute.cost - ecost g nli.nd_edge := by
    have hx := sumCost_dropLast g iroute.edges nli.nd_edge hlasti
    omega
  -- cost of the merged route equals the guard quantity
  have hcost : ((i1.append g e).extend g j1.edges).cost
      = iroute.cost + jroute.cost - (edgeAt g e).saving := by
    rw [hi1, hj1]
    simp only [Route.append, Route.extend]
    rw [htail_sum]
    simp only [ecost] at hsv ⊢
    omega
  have hdl : 1 ≤ iroute.edges.dropLast.length := by
    rw [List.length_dropLast]
    omega
  have htl : 1 ≤ jroute.edges.tail.length := by
    rw [List.length_tail]
    omega
  refine ⟨⟨?_, ?_, ?_, ?_, ?_⟩, hshape, hcost⟩
  · rw [hshape]
    simp only [List.length_append, List.length_cons]
    omega
  · rw [hshape, hcost]
    rw [sumCost_append, sumCost_cons, htail_sum, hdrop_sum]
    simp only [ecost] at hsv ⊢
    omega
  · refine ⟨fi, nfi, hfi, ?_⟩
    rw [hshape]
    rw [List.head?_append]
    rw [head?_dropLast iroute.edges hleni]
    rw [hheadi]
    rfl
  · refine ⟨lj, nlj, hlj, ?_⟩
    rw [hshape]
    rw [List.getLast?_append]
    have hgl : (e :: jroute.edges.tail).getLast? = some nlj.nd_edge := by
      have hjl2 : jroute.edges.tail.getLast? = some nlj.nd_edge := by
        rw [← hjcons] at hlastj
        cases ht : jroute.edges.tail with
        | nil =>
          exfalso
          rw [ht] at htl
          simp at htl
        | cons t0 ts =>
          rw [ht] at hlastj
          rw [List.getLast?_cons_cons] at hlastj
          exact hlastj
      cases ht : jroute.edges.tail with
      | nil =>
        exfalso
        rw [ht] at htl
        simp at htl
      | cons t0 ts =>
        rw [List.getLast?_cons_cons]
        rw [ht] at hjl2
        exact hjl2
    rw [hgl]
    rfl
  · intro hlt
    rw [hcost]
    exact hfeas

theorem updDest_length (g : ClarkeWrightSavings) (rid : Nat) (nr : List Nat)
    (e : Nat) : (updDest g rid nr e).length = nr.length := by
  unfold updDest
  cases (edgeAt g e).dest with
  | depot => rfl
  | node d => simp

theorem updDests_length (g : ClarkeWrightSavings) (rid : Nat) (es : List Nat)
    (nr : List Nat) : (updDests g rid es nr).length = nr.length := by
  induction es generalizing nr with
  | nil => rfl
  | cons e es ih =>
    show (updDests g rid es (updDest g rid nr e)).length = nr.length
    rw [ih, updDest_length]

theorem updDests_cases (g : ClarkeWrightSavings) (rid : Nat) (es : List Nat)
    (nr : List Nat) (i r2 : Nat)
    (h : (updDests g rid es nr)[i]? = some r2) :
    (r2 = rid ∧ Vertex.node i ∈ es.map (fun e => (edgeAt g e).dest)
      ∧ i < nr.length)
    ∨ nr[i]? = some r2 := by
  induction es generalizing nr with
  | nil => exact Or.inr h
  | cons e es ih =>
    have h1 := ih (updDest g rid nr e) h
    rcases h1 with ⟨hr, hm, hl⟩ | hold
    · exact Or.inl ⟨hr, by simp only [List.map_cons]; exact
        List.mem_cons_of_mem _ hm, by rwa [updDest_length] at hl⟩
    · unfold updDest at hold
      cases hdst : (edgeAt g e).dest with
      | depot => rw [hdst] at hold; exact Or.inr hold
      | node d =>
        rw [hdst] at hold
        rcases getElem?_set_cases nr d i rid r2 hold with ⟨hr, hid, hd⟩ | hnr
        · refine Or.inl ⟨hr, ?_, by omega⟩
          simp only [List.map_cons, hdst, hid]
          exact List.mem_cons_self _ _
        · exact Or.inr hnr

theorem updDests_frame (g : ClarkeWrightSavings) (rid : Nat) (es : List Nat)
    (nr : List Nat) (i : Nat)
    (hmem : Vertex.node i ∉ es.map (fun e => (edgeAt g e).dest)) :
    (updDests g rid es nr)[i]? = nr[i]? := by
  induction es generalizing nr with
  | nil => rfl
  | cons e es ih =>
    simp only [List.map_cons, List.mem_cons] at hmem
    push_neg at hmem
    show (updDests g rid es (updDest g rid nr e))[i]? = nr[i]?
    rw [ih (updDest g rid nr e) hmem.2]
    unfold updDest
    cases hdst : (edgeAt g e).dest with
    | depot => rfl
    | node d =>
      have hdi : d ≠ i := by
        intro hdi
        subst hdi
        exact hmem.1 (by rw [hdst])
      rw [List.getElem?_set_ne hdi]

theorem updDests_covers (g : ClarkeWrightSavings) (rid : Nat) (es : List Nat)
    (nr : List Nat) (i : Nat) (hi : i < nr.length)
    (hmem : Vertex.node i ∈ es.map (fun e => (edgeAt g e).dest)) :
    (updDests g rid es nr)[i]? = some rid := by
  induction es generalizing nr with
  | nil => exact absurd hmem (by simp)
  | cons e es ih =>
    show (updDests g rid es (updDest g rid nr e))[i]? = some rid
    by_cases hrest : Vertex.node i ∈ es.map (fun e => (edgeAt g e).dest)
    · exact ih (updDest g rid nr e) (by rwa [updDest_length]) hrest
    · simp only [List.map_cons, List.mem_cons] at hmem
      rcases hmem with hhead | hm2
      · rw [updDests_frame g rid es _ i hrest]
        unfold updDest
        rw [← hhead]
        simp only []
        rw [List.getElem?_set]
        rw [if_pos rfl, if_pos hi]
      · exact absurd hm2 hrest

theorem removeFirst_mem_of_ne (l : List Nat) (y : Nat) (l1 : List Nat)
    (h : removeFirst l y = some l1) :
    ∀ z ∈ l, z ≠ y → z ∈ l1 := by
  induction l generalizing l1 with
  | nil => exact absurd h (by simp [removeFirst])
  | cons x xs ih =>
    unfold removeFirst at h
    by_cases hx : x = y
    · simp only [hx, if_true] at h
      rw [Option.some.injEq] at h
      subst h
      intro z hz hzy
      rcases List.mem_cons.mp hz with hzx | hzxs
      · exact absurd (hzx.trans hx) hzy
      · exact hzxs
    · simp only [hx, if_false] at h
      cases hr : removeFirst xs y with
      | none => rw [hr] at h; exact absurd h (by simp)
      | some l2 =>
        rw [hr] at h
        rw [Option.map_some', Option.some.injEq] at h
        subst h
        intro z hz hzy
        rcases List.mem_cons.mp hz with hzx | hzxs
        · subst hzx; exact List.mem_cons_self _ _
        · exact List.mem_cons_of_mem _ (ih l2 hr z hzxs hzy)

theorem removeFirst_nodup (l : List Nat) (y : Nat) (l1 : List Nat)
    (hn : l.Nodup) (h : removeFirst l y = some l1) :
    l1.Nodup ∧ y ∉ l1 := by
  induction l generalizing l1 with
  | nil => exact absurd h (by simp [removeFirst])
  | cons x xs ih =>
    rcases List.nodup_cons.mp hn with ⟨hx_not, hxs⟩
    unfold removeFirst at h
    by_cases hx : x = y
    · simp only [hx, if_true] at h
      rw [Option.some.injEq] at h
      subst h
      subst hx
      exact ⟨hxs, hx_not⟩
    · simp only [hx, if_false] at h
      cases hr : removeFirst xs y with
      | none => rw [hr] at h; exact absurd h (by simp)
      | some l2 =>
        rw [hr] at h
        rw [Option.map_some', Option.some.injEq] at h
        subst h
        have hih := ih l2 hxs hr
        refine ⟨List.nodup_cons.mpr ⟨?_, hih.1⟩, ?_⟩
        · intro hxl2
          exact hx_not (removeFirst_subset xs y l2 hr x hxl2)
        · intro hyl
          rcases List.mem_cons.mp hyl with hxy | hyl2
          · exact hx hxy.symm
          · exact hih.2 hyl2

theorem map_getLast?_decomp (l : List Nat) (a : Nat) (f : Nat → Vertex)
    (h : l.getLast? = some a) : l.map f = l.dropLast.map f ++ [f a] := by
  have hne : l ≠ [] := by intro he; subst he; simp at h
  rw [List.getLast?_eq_getLast l hne] at h
  rw [Option.some.injEq] at h
  subst h
  conv_lhs => rw [(List.dropLast_append_getLast hne).symm]
  rw [List.map_append]
  rfl

theorem stepEdge_inv (g : ClarkeWrightSavings) (M : Int) (hwf : wfB g = true)
    (e : Nat) (st st1 : HState) (hinv : StInv g M st)
    (h : stepEdge g false (some M) e st = Except.ok st1) :
    StInv g M st1 := by
  obtain ⟨hnd, hlisted, hptr, hcoh⟩ := hinv
  unfold stepEdge at h
  cases hor : (edgeAt g e).origin with
  | depot => rw [hor] at h; exact absurd h (by simp)
  | node oi =>
  cases hde : (edgeAt g e).dest with
  | depot => rw [hor, hde] at h; exact absurd h (by simp)
  | node di =>
  rw [hor, hde] at h
  simp only [] at h
  cases hoi : st.nodeRoute[oi]? with
  | none => rw [hoi] at h; exact absurd h (by simp)
  | some irid =>
  cases hdi : st.nodeRoute[di]? with
  | none => rw [hoi, hdi] at h; exact absurd h (by simp)
  | some jrid =>
  rw [hoi, hdi] at h
  simp only [] at h
  by_cases hij : irid = jrid
  · rw [if_pos hij] at h
    rw [Except.ok.injEq] at h
    subst h
    exact ⟨hnd, hlisted, hptr, hcoh⟩
  · rw [if_neg hij] at h
    cases hir : st.pool[irid]? with
    | none => rw [hir] at h; exact absurd h (by simp)
    | some iroute =>
    cases hjr : st.pool[jrid]? with
    | none => rw [hir, hjr] at h; exact absurd h (by simp)
    | some jroute =>
    rw [hir, hjr] at h
    simp only [] at h
    cases hfn : iroute.first_node g with
    | none => rw [hfn] at h; exact absurd h (by simp)
    | some ifirst =>
    cases hln : iroute.last_node g with
    | none => rw [hfn, hln] at h; exact absurd h (by simp)
    | some ilast =>
    cases hjf : jroute.first_node g with
    | none => rw [hfn, hln, hjf] at h; exact absurd h (by simp)
    | some jfirst =>
    cases hjl : jroute.last_node g with
    | none => rw [hfn, hln, hjf, hjl] at h; exact absurd h (by simp)
    | some jlast =>
    rw [hfn, hln, hjf, hjl] at h
    simp only [] at h
    by_cases hint : (Vertex.node oi ≠ ifirst ∧ Vertex.node oi ≠ ilast)
        ∨ (Vertex.node di ≠ jfirst ∧ Vertex.node di ≠ jlast)
    · rw [if_pos hint] at h
      rw [Except.ok.injEq] at h
      subst h
      exact ⟨hnd, hlisted, hptr, hcoh⟩
    · rw [if_neg hint] at h
      by_cases hdir : (Vertex.node oi = ilast ∧ Vertex.node di = jfirst)
      · rw [if_pos hdir] at h
        by_cases hfeas :
            leMax (iroute.cost + jroute.cost - (edgeAt g e).saving)
              (some M) = true
        · rw [if_pos hfeas] at h
          cases hpr : iroute.popright g with
          | none => rw [hpr] at h; exact absurd h (by simp)
          | some i1 =>
          cases hpl : jroute.popleft g with
          | none => rw [hpr, hpl] at h; exact absurd h (by simp)
          | some j1 =>
          rw [hpr, hpl] at h
          simp only [] at h
          cases hrm : removeFirst st.routes jrid with
          | none => rw [hrm] at h; exact absurd h (by simp)
          | some rs =>
          rw [hrm] at h
          simp only [] at h
          rw [Except.ok.injEq] at h
          subst h
          -- the interesting case: a successful direct merge
          have hirid_mem : irid ∈ st.routes := hptr oi irid hoi
          have hjrid_mem : jrid ∈ st.routes := hptr di jrid hdi
          obtain ⟨iroute2, hir2, hii⟩ := hlisted irid hirid_mem
          obtain ⟨jroute2, hjr2, hji⟩ := hlisted jrid hjrid_mem
          rw [hir] at hir2
          rw [Option.some.injEq] at hir2
          subst hir2
          rw [hjr] at hjr2
          rw [Option.some.injEq] at hjr2
          subst hjr2
          have hlastO : iroute.last_node g = some (Vertex.node oi) := by
            rw [hln, ← hdir.1]
          have hfirstD : jroute.first_node g = some (Vertex.node di) := by
            rw [hjf, ← hdir.2]
          have hfeas2 : iroute.cost + jroute.cost - (edgeAt g e).saving ≤ M := by
            unfold leMax at hfeas
            simpa using hfeas
          obtain ⟨hRI, hshape, hcostm⟩ := merge_routeInv g M hwf e oi di
            iroute jroute i1 j1 hor hde hii hji hlastO hfirstD hfeas2 hpr hpl
          -- decompositions of iroute and jroute
          obtain ⟨hleni, hcosti, ⟨fi, nfi, hfi, hheadi⟩,
            ⟨li, nli, hli, hlasti⟩, hMi⟩ := hii
          obtain ⟨hlenj, hcostj, ⟨fj, nfj, hfj, hheadj⟩,
            ⟨lj, nlj, hlj, hlastj⟩, hMj⟩ := hji
          have hwfi := wfNodes_spec g hwf li nli hli
          have hwfj := wfNodes_spec g hwf fj nfj hfj
          have hwlj := wfNodes_spec g hwf lj nlj hlj
          have hjcons : nfj.dn_edge :: jroute.edges.tail = jroute.edges :=
            List.cons_head?_tail hheadj
          have hj1 : j1 = ⟨jroute.edges.tail,
              jroute.cost - ecost g nfj.dn_edge⟩ := by
            unfold Route.popleft at hpl
            rw [← hjcons] at hpl
            rw [Option.some.injEq] at hpl
            exact hpl.symm
          have hfj_di : fj = di := by
            unfold Route.first_node at hfirstD
            rw [hheadj] at hfirstD
            simp only [Option.map_some', Option.some.injEq] at hfirstD
            rw [hwfj.2.1] at hfirstD
            exact Vertex.node.inj hfirstD
          have htl : 1 ≤ jroute.edges.tail.length := by
            rw [List.length_tail]
            omega
          have htail_last : jroute.edges.tail.getLast? = some nlj.nd_edge := by
            rw [← hjcons] at hlastj
            cases ht : jroute.edges.tail with
            | nil => rw [ht] at htl; simp at htl
            | cons t0 ts =>
              rw [ht] at hlastj
              rw [List.getLast?_cons_cons] at hlastj
              exact hlastj
          -- destination decomposition of jroute
          have hjdests : jroute.edges.map (fun x => (edgeAt g x).dest)
              = Vertex.node di
                :: (jroute.edges.tail.dropLast.map (fun x => (edgeAt g x).dest)
                  ++ [Vertex.depot]) := by
            conv_lhs => rw [← hjcons]
            simp only [List.map_cons]
            rw [hwfj.2.1, hfj_di]
            rw [map_getLast?_decomp jroute.edges.tail nlj.nd_edge _ htail_last]
            simp [hwlj.2.2.2]
          -- destination decomposition of iroute
          have hidests : iroute.edges.map (fun x => (edgeAt g x).dest)
              = iroute.edges.dropLast.map (fun x => (edgeAt g x).dest)
                ++ [Vertex.depot] := by
            rw [map_getLast?_decomp iroute.edges nli.nd_edge _ hlasti]
            simp [hwfi.2.2.2]
          -- destinations of the merged route
          have hmdests : ((i1.append g e).extend g j1.edges).edges.map
              (fun x => (edgeAt g x).dest)
              = iroute.edges.dropLast.map (fun x => (edgeAt g x).dest)
                ++ Vertex.node di
                  :: jroute.edges.tail.map (fun x => (edgeAt g x).dest) := by
            rw [hshape]
            rw [List.map_append, List.map_cons, hde]
          have hirid_lt : irid < st.pool.length :=
            (List.getElem?_eq_some_iff.mp hir).1
          have hjrid_lt : jrid < st.pool.length :=
            (List.getElem?_eq_some_iff.mp hjr).1
          have hji_ne : jrid ≠ irid := fun hh => hij hh.symm
          -- pool lookups in the updated pool
          have hpool_irid :
              ((st.pool.set irid ((i1.append g e).extend g j1.edges)).set
                jrid j1)[irid]? = some ((i1.append g e).extend g j1.edges) := by
            rw [List.getElem?_set_ne hji_ne]
            rw [List.getElem?_set]
            rw [if_pos rfl, if_pos hirid_lt]
          have hpool_jrid :
              ((st.pool.set irid ((i1.append g e).extend g j1.edges)).set
                jrid j1)[jrid]? = some j1 := by
            rw [List.getElem?_set]
            rw [if_pos rfl]
            rw [if_pos (by simpa using hjrid_lt)]
          have hpool_other : ∀ rid : Nat, rid ≠ irid → rid ≠ jrid →
              ((st.pool.set irid ((i1.append g e).extend g j1.edges)).set
                jrid j1)[rid]? = st.pool[rid]? := by
            intro rid hri hrj
            rw [List.getElem?_set_ne (fun hh => hrj hh.symm)]
            rw [List.getElem?_set_ne (fun hh => hri hh.symm)]
          have hrs_sub := removeFirst_subset st.routes jrid rs hrm
          have hrs_nodup := removeFirst_nodup st.routes jrid rs hnd hrm
          have hkeep := removeFirst_mem_of_ne st.routes jrid rs hrm
          have hirid_rs : irid ∈ rs := hkeep irid hirid_mem hij
          have hj1e : j1.edges = jroute.edges.tail := by rw [hj1]
          -- no pointer to the removed route survives in the new table
          have hnew_no_jrid : ∀ i2 : Nat,
              (updDests g irid j1.edges.dropLast
                (st.nodeRoute.set di irid))[i2]? = some jrid → False := by
            intro i2 hh
            rcases updDests_cases g irid _ _ i2 jrid hh with ⟨hji2, _, _⟩ | hset
            · exact hij hji2.symm
            · rcases getElem?_set_cases st.nodeRoute di i2 irid jrid hset with
                ⟨hji2, _, _⟩ | hold
              · exact hij hji2.symm
              · have hi2lt : i2 < st.nodeRoute.length :=
                  (List.getElem?_eq_some_iff.mp hold).1
                have hmemD := hcoh i2 jrid jroute hold hjr
                rw [hjdests] at hmemD
                rcases List.mem_cons.mp hmemD with hhead | hrest
                · have hi2di : i2 = di := Vertex.node.inj hhead
                  subst hi2di
                  rw [List.getElem?_set] at hset
                  rw [if_pos rfl] at hset
                  rw [if_pos hi2lt] at hset
                  rw [Option.some.injEq] at hset
                  exact hij hset
                · rcases List.mem_append.mp hrest with hmid | hdep
                  · have hcov := updDests_covers g irid j1.edges.dropLast
                      (st.nodeRoute.set di irid) i2 (by simpa using hi2lt)
                      (by rw [hj1e]; exact hmid)
                    rw [hcov] at hh
                    rw [Option.some.injEq] at hh
                    exact hij hh
                  · simp at hdep
          refine ⟨hrs_nodup.1, ?_, ?_, ?_⟩
          · -- every listed route satisfies the invariant
            intro rid hrid
            have hrid_mem := hrs_sub rid hrid
            have hrid_ne_j : rid ≠ jrid := fun hh => hrs_nodup.2 (hh ▸ hrid)
            by_cases hri : rid = irid
            · subst hri
              exact ⟨_, hpool_irid, hRI⟩
            · obtain ⟨r, hrp, hri2⟩ := hlisted rid hrid_mem
              refine ⟨r, ?_, hri2⟩
              rw [hpool_other rid hri hrid_ne_j]
              exact hrp
          · -- every pointer targets a listed route
            intro i2 rid hh
            rcases updDests_cases g irid _ _ i2 rid hh with ⟨hri, _, _⟩ | hset
            · subst hri
              exact hirid_rs
            · rcases getElem?_set_cases st.nodeRoute di i2 irid rid hset with
                ⟨hri, _, _⟩ | hold
              · subst hri
                exact hirid_rs
              · have hmem := hptr i2 rid hold
                by_cases hrj : rid = jrid
                · exfalso
                  subst hrj
                  exact hnew_no_jrid i2 hh
                · exact hkeep rid hmem hrj
          · -- every pointing node occurs as a destination on its route
            intro i2 rid r hh hpr2
            rcases updDests_cases g irid _ _ i2 rid hh with ⟨hri, hm, _⟩ | hset
            · subst hri
              rw [hpool_irid] at hpr2
              rw [Option.some.injEq] at hpr2
              subst hpr2
              rw [hmdests]
              refine List.mem_append.mpr (Or.inr (List.mem_cons_of_mem _ ?_))
              rw [hj1e] at hm
              exact ((List.dropLast_sublist jroute.edges.tail).map
                (fun x => (edgeAt g x).dest)).mem hm
            · rcases getElem?_set_cases st.nodeRoute di i2 irid rid hset with
                ⟨hri, hi2d, _⟩ | hold
              · subst hri
                subst hi2d
                rw [hpool_irid] at hpr2
                rw [Option.some.injEq] at hpr2
                subst hpr2
                rw [hmdests]
                exact List.mem_append.mpr (Or.inr (List.mem_cons_self _ _))
              · by_cases hrj : rid = jrid
                · exfalso
                  subst hrj
                  exact hnew_no_jrid i2 hh
                · by_cases hri : rid = irid
                  · subst hri
                    rw [hpool_irid] at hpr2
                    rw [Option.some.injEq] at hpr2
                    subst hpr2
                    have hmo := hcoh i2 _ iroute hold hir
                    rw [hidests] at hmo
                    rcases List.mem_append.mp hmo with hfirstpart | hdep
                    · rw [hmdests]
                      exact List.mem_append.mpr (Or.inl hfirstpart)
                    · simp at hdep
                  · rw [hpool_other rid hri hrj] at hpr2
                    exact hcoh i2 rid r hold hpr2
        · rw [if_neg hfeas] at h
          rw [Except.ok.injEq] at h
          subst h
          exact ⟨hnd, hlisted, hptr, hcoh⟩
      · rw [if_neg hdir] at h
        rw [if_neg (by simp : ¬ (false = true))] at h
        rw [Except.ok.injEq] at h
        subst h
        exact ⟨hnd, hlisted, hptr, hcoh⟩

theorem mergeLoop_inv (g : ClarkeWrightSavings) (cfg : CWSConfiguration)
    (draws : Nat → Option Nat) (M : Int) (hwf : wfB g = true)
    (hrev : cfg.reverse = false) (hmax : cfg.maxcost = some M) :
    ∀ (fuel : Nat) (it : SavIter) (st st1 : HState),
      StInv g M st →
      mergeLoop g cfg draws fuel it st = Except.ok st1 →
      StInv g M st1 := by
  intro fuel
  induction fuel with
  | zero =>
    intro it st st1 hi h
    unfold mergeLoop at h
    rw [Except.ok.injEq] at h
    subst h
    exact hi
  | succ m ih =>
    intro it st st1 hi h
    cases it with
    | plain rest =>
      cases rest with
      | nil =>
        unfold mergeLoop at h
        rw [Except.ok.injEq] at h
        subst h
        exact hi
      | cons e rest =>
        unfold mergeLoop at h
        by_cases hf : floorHit st.routes.length cfg.minroutes = true
        · rw [if_pos hf] at h
          rw [Except.ok.injEq] at h
          subst h
          exact hi
        · rw [if_neg hf] at h
          cases hs : stepEdge g cfg.reverse cfg.maxcost e st with
          | error st2 => rw [hs] at h; exact absurd h (by simp)
          | ok st2 =>
            rw [hs] at h
            simp only [] at h
            rw [hrev, hmax] at hs
            exact ih (SavIter.plain rest) st2 st1
              (stepEdge_inv g M hwf e st st2 hi hs) h
    | biased k kf options =>
      cases kf with
      | zero =>
        unfold mergeLoop at h
        rw [Except.ok.injEq] at h
        subst h
        exact hi
      | succ m2 =>
        unfold mergeLoop at h
        cases hd : draws k with
        | none => rw [hd] at h; exact absurd h (by simp)
        | some rwv =>
          rw [hd] at h
          simp only [] at h
          cases hp : popAt options (rwv % options.length) with
          | none => rw [hp] at h; exact absurd h (by simp)
          | some pr =>
            rcases pr with ⟨e, rest⟩
            rw [hp] at h
            simp only [] at h
            by_cases hf : floorHit st.routes.length cfg.minroutes = true
            · rw [if_pos hf] at h
              rw [Except.ok.injEq] at h
              subst h
              exact hi
            · rw [if_neg hf] at h
              cases hs : stepEdge g cfg.reverse cfg.maxcost e st with
              | error st2 => rw [hs] at h; exact absurd h (by simp)
              | ok st2 =>
                rw [hs] at h
                simp only [] at h
                rw [hrev, hmax] at hs
                exact ih (SavIter.biased (k + 1) m2 rest) st2 st1
                  (stepEdge_inv g M hwf e st st2 hi hs) h

/-- C2 amended — on every well-formed input (structurally sound depot edges
and savings consistent with the depot-edge costs) and every configuration
with `reverse` disabled and finite `maxcost = M`, every returned route that
is the product of at least one merge (more than two edges) has cost at most
`M`.  Routes still in their initial dummy form (exactly two edges) are never
compared against `maxcost` and may exceed it — see the counterexample — and
with `reverse` enabled the bound can also be broken through the
inverse-substitution merge, whose feasibility guard prices the wrong depot
edges. -/
theorem heuristic_maxcost (g : ClarkeWrightSavings) (cfg : CWSConfiguration)
    (draws : Nat → Option Nat) (M : Int) (rts : List Route) (tc : Int)
    (hwf : wfB g = true) (hrev : cfg.reverse = false)
    (hmax : cfg.maxcost = some M)
    (h : heuristic g cfg draws = Except.ok (rts, tc)) :
    ∀ r ∈ rts, 2 < r.edges.length → r.cost ≤ M := by
  unfold heuristic at h
  simp only [] at h
  cases hrun : mergeLoop g cfg draws (initIter g cfg).size (initIter g cfg)
      (dummyState g) with
  | error st => rw [hrun] at h; exact absurd h (by simp)
  | ok st =>
    rw [hrun] at h
    simp only [] at h
    rw [Except.ok.injEq] at h
    have hinv := mergeLoop_inv g cfg draws M hwf hrev hmax
      (initIter g cfg).size (initIter g cfg) (dummyState g) st
      (dummyState_inv g M hwf) hrun
    intro r hr hlen
    have hr2 : r ∈ (solutionOf st).1 := by
      have : rts = (solutionOf st).1 := by rw [h]
      rw [← this]
      exact hr
    rcases List.mem_filterMap.mp hr2 with ⟨rid, hrid_mem, hrid_get⟩
    obtain ⟨r2, hr2p, hri⟩ := hinv.2.1 rid hrid_mem
    rw [hr2p] at hrid_get
    rw [Option.some.injEq] at hrid_get
    subst hrid_get
    exact hri.2.2.2.2 hlen

/-- Two-node well-formed instance on which one merge happens, used as the
witness for `heuristic_maxcost`. -/
def gC2w : ClarkeWrightSavings :=
  { nodes := [⟨0, 1⟩, ⟨2, 3⟩]
  , epool :=
      [ ⟨Vertex.depot, Vertex.node 0, 0, 10, 1⟩
      , ⟨Vertex.node 0, Vertex.depot, 0, 10, 0⟩
      , ⟨Vertex.depot, Vertex.node 1, 0, 10, 3⟩
      , ⟨Vertex.node 1, Vertex.depot, 0, 10, 2⟩
      , ⟨Vertex.node 0, Vertex.node 1, 18, 2, 5⟩
      , ⟨Vertex.node 1, Vertex.node 0, 18, 2, 4⟩ ]
  , sedges := [4] }

/-- Configuration for the witness of `heuristic_maxcost`. -/
def cfgC2w : CWSConfiguration :=
  { biased := false, reverse := false, maxcost := some 100, minroutes := none }

/-- Witness for `heuristic_maxcost`: the merged three-edge route returned on
`gC2w` has cost 22, at most `maxcost = 100`. -/
theorem heuristic_maxcost_witness : (Route.mk [0, 4, 3] 22).cost ≤ (100 : Int) :=
  heuristic_maxcost gC2w cfgC2w (fun _ => none) 100 [Route.mk [0, 4, 3] 22] 22
    (by decide) rfl rfl rfl (Route.mk [0, 4, 3] 22)
    (List.mem_singleton.mpr rfl) (by decide)
